import Mathlib

set_option synthInstance.maxHeartbeats 1000000
set_option maxRecDepth 10000

/-!
Verification development for the 8-puzzle STRIPS planner (strips.py).

The embedding translates the State class, the operator table built in
the Strips constructor, the regression step update_current_state, the
heuristic pick_move and the run loop into executable Lean definitions.
Python sets of fact tuples become finite sets of a Fact structure;
dictionary lookups that could raise KeyError return Option; the wall
clock budget is abstracted by a function giving, for each completed
loop iteration, whether the elapsed-time check trips; random.choice
is abstracted by a chooser function, with claims quantified over all
choosers that return a member of the given set.
-/

namespace Puzzle

/-- Equality of finite sets decided by double inclusion; this kernel
friendly instance replaces the permutation based library instance so
that concrete executions of the planner can be checked by decide. -/
instance (priority := 2000) finsetDecEq {α : Type _} [DecidableEq α] :
    DecidableEq (Finset α) :=
  fun a b =>
    decidable_of_iff ((∀ x ∈ a, x ∈ b) ∧ (∀ x ∈ b, x ∈ a))
      (by rw [Finset.Subset.antisymm_iff, Finset.subset_iff, Finset.subset_iff])

/-- Kernel friendly list equality: the library instance rewrites with
equality proofs of the elements, which blocks kernel reduction when an
element proof is not definitional (as with finsetDecEq above). -/
def listDecEqFun {α : Type _} [DecidableEq α] : (a b : List α) → Decidable (a = b)
  | [], [] => isTrue rfl
  | [], _ :: _ => isFalse (fun h => List.noConfusion h)
  | _ :: _, [] => isFalse (fun h => List.noConfusion h)
  | a :: as, b :: bs =>
    haveI : Decidable (as = bs) := listDecEqFun as bs
    decidable_of_iff (a = b ∧ as = bs) (by simp)

instance (priority := 2000) listDecEq {α : Type _} [DecidableEq α] :
    DecidableEq (List α) := listDecEqFun

/-- Kernel friendly option equality, as for listDecEq. -/
instance (priority := 2000) optionDecEq {α : Type _} [DecidableEq α] :
    DecidableEq (Option α) := fun a b =>
  match a, b with
  | none, none => isTrue rfl
  | none, some _ => isFalse (fun h => Option.noConfusion h)
  | some _, none => isFalse (fun h => Option.noConfusion h)
  | some x, some y => decidable_of_iff (x = y) (by simp)

/-- Kernel friendly pair equality, as for listDecEq. -/
instance (priority := 2000) prodDecEq {α β : Type _} [DecidableEq α] [DecidableEq β] :
    DecidableEq (α × β) := fun a b =>
  decidable_of_iff (a.1 = b.1 ∧ a.2 = b.2) (by cases a; cases b; simp)

/-- A positional fact. The source stores facts as 4-tuples: the tag
distinguishes an on fact (true) from a clear fact (false), followed by
the tile number (0 for clear facts), the row and the column. -/
structure Fact where
  tag : Bool
  tile : Nat
  row : Nat
  col : Nat
deriving DecidableEq

/-- The on fact, source tuple (on, t, i, j). -/
def onF (t i j : Nat) : Fact := ⟨true, t, i, j⟩

/-- The clear fact, source tuple (clear, 0, i, j). -/
def clearF (i j : Nat) : Fact := ⟨false, 0, i, j⟩

/-- A move, source tuple (move, tile, fi, fj, ti, tj); the constant
leading tag "move" is dropped. -/
structure Move where
  tile : Nat
  fi : Nat
  fj : Nat
  ti : Nat
  tj : Nat
deriving DecidableEq

/-- The State class of the source: a set of positional facts. -/
@[ext] structure State where
  positions : Finset Fact

instance (priority := 2000) stateDecEq : DecidableEq State := fun a b =>
  decidable_of_iff (a.positions = b.positions) (by cases a; cases b; simp)

/-- The nine grid cells in row-major order. -/
def allCells : List (Nat × Nat) :=
  [(1,1),(1,2),(1,3),(2,1),(2,2),(2,3),(3,1),(3,2),(3,3)]

/-- State.get_clear: the cell of a clear fact. The source scans the
fact set in unspecified set-iteration order and returns the first
clear fact; for a well-formed state that fact is unique and lies on
the grid, so scanning the nine grid cells is an equivalent
deterministic model. Returns none when no clear fact sits on the grid
(the source would return None and the caller would fail). -/
def State.get_clear (s : State) : Option (Nat × Nat) :=
  allCells.find? (fun c => decide (clearF c.1 c.2 ∈ s.positions))

/-- State.get_number: the tile number of a fact at cell (i, j). The
source returns the second component of the first fact at that cell in
set-iteration order; for a well-formed state the fact at a cell is
unique and its tile is at most 8, so searching tiles 0..8 is an
equivalent deterministic model. -/
def State.get_number (s : State) (i j : Nat) : Option Nat :=
  (List.range 9).findSome? (fun t =>
    if (⟨true, t, i, j⟩ : Fact) ∈ s.positions then some t
    else if (⟨false, t, i, j⟩ : Fact) ∈ s.positions then some t
    else none)

/-- One guarded branch of State.get_possible_moves: when the guard g
holds, look up the tile at the neighbour cell (ni, nj) and add the
move filling the clear cell (ci, cj) from that neighbour. -/
def gpm_step (s : State) (ci cj : Nat) (acc : Option (Finset Move)) (g : Bool)
    (ni nj : Nat) : Option (Finset Move) :=
  match acc with
  | none => none
  | some pm =>
    if g then
      match s.get_number ni nj with
      | none => none
      | some n => some (insert (⟨n, ci, cj, ni, nj⟩ : Move) pm)
    else some pm

/-- State.get_possible_moves: the four guarded branches of the source
(up, down, left, right of the clear cell), accumulated into a set. -/
def State.get_possible_moves (s : State) : Option (Finset Move) :=
  match s.get_clear with
  | none => none
  | some (ci, cj) =>
    gpm_step s ci cj
      (gpm_step s ci cj
        (gpm_step s ci cj
          (gpm_step s ci cj (some ∅) (decide (0 < ci - 1)) (ci - 1) cj)
          (decide (ci + 1 < 4)) (ci + 1) cj)
        (decide (0 < cj - 1)) ci (cj - 1))
      (decide (cj + 1 < 4)) ci (cj + 1)

/-- State.copy: value copy of the fact set. -/
def State.copy (s : State) : State := s

/-- One cell of the operator generation loops in the Strips
constructor: the up to four moves of tile x out of cell (i, j). -/
def neighborMoves (x i j : Nat) : List Move :=
  (if 0 < i - 1 then [⟨x, i, j, i - 1, j⟩] else []) ++
  (if i + 1 < 4 then [⟨x, i, j, i + 1, j⟩] else []) ++
  (if 0 < j - 1 then [⟨x, i, j, i, j - 1⟩] else []) ++
  (if j + 1 < 4 then [⟨x, i, j, i, j + 1⟩] else [])

/-- The list possible_operators of the Strips constructor: tiles 1..8,
rows 1..3, columns 1..3, with the four adjacency guards. -/
def possible_operators : List Move :=
  (List.range' 1 8).flatMap (fun x =>
    (List.range' 1 3).flatMap (fun i =>
      (List.range' 1 3).flatMap (fun j => neighborMoves x i j)))

/-- The value stored in the operators dictionary for one move key. -/
structure Op where
  preconditions : Finset Fact
  addList : Finset Fact
  removeList : Finset Fact

instance (priority := 2000) opDecEq : DecidableEq Op := fun a b =>
  decidable_of_iff
    (a.preconditions = b.preconditions ∧ a.addList = b.addList ∧ a.removeList = b.removeList)
    (by cases a; cases b; simp)

/-- The operator record the Strips constructor stores under key m. -/
def opOf (m : Move) : Op :=
  { preconditions := {onF m.tile m.fi m.fj, clearF m.ti m.tj}
    addList := {onF m.tile m.ti m.tj, clearF m.fi m.fj}
    removeList := {onF m.tile m.fi m.fj, clearF m.ti m.tj} }

/-- The operators dictionary, as the association list the Strips
constructor builds from possible_operators. -/
def operators_list : List (Move × Op) := possible_operators.map (fun m => (m, opOf m))

/-- Dictionary lookup; a missing key raises KeyError in the source,
modeled by none. -/
def lookup_op (tbl : List (Move × Op)) (m : Move) : Option Op := tbl.lookup m

/-- Strips.update_current_state: remove every fact at the from cell or
the to cell of the move, then add the preconditions of the move. -/
def update_current_state (tbl : List (Move × Op)) (current : State) (m : Move) :
    Option State :=
  (lookup_op tbl m).map (fun op =>
    ⟨(current.positions.filter (fun f =>
        ¬ ((f.row = m.fi ∧ f.col = m.fj) ∨ (f.row = m.ti ∧ f.col = m.tj)))) ∪
      op.preconditions⟩)

/-- The accumulation loop of Strips.pick_move over the candidate moves
in one concrete iteration order, starting from winner = empty and
winner_points = -1. -/
def pick_move_loop (tbl : List (Move × Op)) (ini : State) :
    List Move → Finset Move × Int → Option (Finset Move × Int)
  | [], acc => some acc
  | m :: rest, (winner, winner_points) =>
    match lookup_op tbl m with
    | none => none
    | some op =>
      let move_pts : Int := ((op.preconditions ∩ ini.positions).card : Int)
      if winner_points < move_pts then pick_move_loop tbl ini rest ({m}, move_pts)
      else if move_pts = winner_points then
        pick_move_loop tbl ini rest (insert m winner, winner_points)
      else pick_move_loop tbl ini rest (winner, winner_points)

/-- The heuristic score of a candidate move: how many of its
preconditions already hold in the initial state (0 when the move is
not a key of the table; the table lookup failure is tracked
separately). -/
def move_score (tbl : List (Move × Op)) (ini : State) (m : Move) : Nat :=
  ((lookup_op tbl m).map (fun op => (op.preconditions ∩ ini.positions).card)).getD 0

/-- The set of moves Strips.pick_move can return: the candidates of
maximal score. pick_move iterates the candidate set in unspecified
order; pick_move_loop_eq_winners below shows the loop computes exactly
this set for every iteration order, so the run loop is stated against
this order-independent value. Returns none when some candidate is not
a key of the table, as the loop would raise KeyError. -/
def winners (tbl : List (Move × Op)) (ini : State) (pms : Finset Move) :
    Option (Finset Move) :=
  if ∀ m ∈ pms, (lookup_op tbl m).isSome then
    some (pms.filter (fun m => ∀ m2 ∈ pms, move_score tbl ini m2 ≤ move_score tbl ini m))
  else none

/-- The while loop of Strips.run. The chooser models random.choice on
the winner set at iteration k; tmo k tells whether the elapsed-time
check performed at the end of iteration k exceeds the budget; fuel
bounds how many iterations we unfold (none means the loop is still
running past the fuel bound, or a source exception occurred). -/
def run_loop (tbl : List (Move × Op)) (ini : State)
    (chooser : Nat → Finset Move → Move) (tmo : Nat → Bool) :
    Nat → Nat → State → List Move → Option (Bool × List Move × State)
  | 0, _, _, _ => none
  | fuel + 1, k, current, performed =>
    if 9 ≤ (current.positions ∩ ini.positions).card then
      some (true, performed.reverse, current)
    else
      match current.get_possible_moves with
      | none => none
      | some pms =>
        match winners tbl ini pms with
        | none => none
        | some w =>
          if w = ∅ then none
          else
            let chosen := chooser k w
            match update_current_state tbl current chosen with
            | none => none
            | some current2 =>
              if tmo k then some (false, performed ++ [chosen], current2)
              else run_loop tbl ini chooser tmo fuel (k + 1) current2 (performed ++ [chosen])

/-- The Strips planner instance: its initial state, time budget,
operators dictionary, goal state and mutable current state. -/
structure Strips where
  initial_state : State
  max_elaps_time : Nat
  operators : List (Move × Op)
  goal_state : State
  current_state : State

instance (priority := 2000) stripsDecEq : DecidableEq Strips := fun a b =>
  decidable_of_iff
    (a.initial_state = b.initial_state ∧ a.max_elaps_time = b.max_elaps_time ∧
      a.operators = b.operators ∧ a.goal_state = b.goal_state ∧
      a.current_state = b.current_state)
    (by cases a; cases b; simp)

/-- The fixed goal literal of the Strips constructor:
1 2 3 / 8 _ 4 / 7 6 5 with the clear cell at (2, 2). -/
def goalPositions : Finset Fact :=
  {onF 1 1 1, onF 2 1 2, onF 3 1 3, onF 8 2 1, clearF 2 2, onF 4 2 3,
   onF 7 3 1, onF 6 3 2, onF 5 3 3}

/-- The goal state object. -/
def goal_state : State := ⟨goalPositions⟩

/-- The Strips constructor: stores the initial state and budget,
builds the operators dictionary, sets the fixed goal state and
starts the current state at a copy of the goal state. -/
def mkStrips (ini : State) (t : Nat) : Strips :=
  { initial_state := ini
    max_elaps_time := t
    operators := operators_list
    goal_state := goal_state
    current_state := goal_state.copy }

/-- Strips.run: runs the loop from the stored current state with the
stored initial state and operators, iteration counter starting at 1
and no operations performed yet; on a result, the instance keeps the
final current state (in-place mutation of the Python object). -/
def Strips.run (S : Strips) (chooser : Nat → Finset Move → Move) (tmo : Nat → Bool)
    (fuel : Nat) : Option ((Bool × List Move) × Strips) :=
  match run_loop S.operators S.initial_state chooser tmo fuel 1 S.current_state [] with
  | none => none
  | some (b, ops, fin) => some ((b, ops), { S with current_state := fin })

/-- Cell (i, j) lies on the 3 by 3 grid. -/
def inGrid (i j : Nat) : Prop := 1 ≤ i ∧ i ≤ 3 ∧ 1 ≤ j ∧ j ≤ 3

instance inGrid_dec (i j : Nat) : Decidable (inGrid i j) := by
  unfold inGrid; infer_instance

/-- Cells (i, j) and (k, l) are orthogonally adjacent. -/
def adjacentCells (i j k l : Nat) : Prop :=
  (k = i + 1 ∧ l = j) ∨ (i = k + 1 ∧ l = j) ∨ (k = i ∧ l = j + 1) ∨ (k = i ∧ j = l + 1)

instance adjacentCells_dec (i j k l : Nat) : Decidable (adjacentCells i j k l) := by
  unfold adjacentCells; infer_instance

/-- A fact the program can ever build: its cell lies on the grid, an
on fact carries a tile 1..8, a clear fact carries tile 0. -/
def validFact (f : Fact) : Prop :=
  inGrid f.row f.col ∧ (f.tag = true → 1 ≤ f.tile ∧ f.tile ≤ 8) ∧
    (f.tag = false → f.tile = 0)

instance validFact_dec (f : Fact) : Decidable (validFact f) := by
  unfold validFact; infer_instance

/-- The nine grid cells as a finite set. -/
def cellsFinset : Finset (Nat × Nat) :=
  {(1,1),(1,2),(1,3),(2,1),(2,2),(2,3),(3,1),(3,2),(3,3)}

/-- The corner cells of the grid. -/
def cornerCells : Finset (Nat × Nat) := {(1,1),(1,3),(3,1),(3,3)}

/-- The edge (non-corner, non-center) cells of the grid. -/
def edgeCells : Finset (Nat × Nat) := {(1,2),(2,1),(2,3),(3,2)}

/-- The nine-fact board invariant of the specification: every fact is
valid, every grid cell carries exactly one fact, there is exactly one
clear fact, and each tile 1..8 sits on exactly one cell. -/
def well_formed (s : State) : Prop :=
  (∀ f ∈ s.positions, validFact f) ∧
  (∀ c ∈ cellsFinset, (s.positions.filter (fun f => f.row = c.1 ∧ f.col = c.2)).card = 1) ∧
  (s.positions.filter (fun f => f.tag = false)).card = 1 ∧
  (∀ t ∈ Finset.Icc 1 8, (s.positions.filter (fun f => f.tag = true ∧ f.tile = t)).card = 1)

instance well_formed_dec (s : State) : Decidable (well_formed s) := by
  unfold well_formed; infer_instance

/-- Modelled from the claim language of the specification: forward
application of a move requires the tile at the from cell and the blank
at the to cell, and produces the tile at the to cell and the blank at
the from cell (the operator applied with its remove list and add
list). -/
def apply_move_forward (s : State) (m : Move) : Option State :=
  if onF m.tile m.fi m.fj ∈ s.positions ∧ clearF m.ti m.tj ∈ s.positions then
    some ⟨(s.positions \ {onF m.tile m.fi m.fj, clearF m.ti m.tj}) ∪
      {onF m.tile m.ti m.tj, clearF m.fi m.fj}⟩
  else none

/-- Forward replay of an operation sequence from a state. -/
def run_forward (s : State) : List Move → Option State
  | [] => some s
  | m :: rest =>
    match apply_move_forward s m with
    | none => none
    | some s2 => run_forward s2 rest

/-- Sequential composition of regression steps, used to state how a
run call transforms the current state. -/
def regress_fold (tbl : List (Move × Op)) (s : State) : List Move → Option State
  | [] => some s
  | m :: rest =>
    match update_current_state tbl s m with
    | none => none
    | some s2 => regress_fold tbl s2 rest

/-- The initial state of the one-move test scenario:
1 2 3 / 8 4 _ / 7 6 5, the goal with tile 4 and the blank swapped. -/
def ini7Positions : Finset Fact :=
  {onF 1 1 1, onF 2 1 2, onF 3 1 3, onF 8 2 1, onF 4 2 2, clearF 2 3,
   onF 7 3 1, onF 6 3 2, onF 5 3 3}

/-- The one-move test initial state object. -/
def ini7 : State := ⟨ini7Positions⟩

/-- The move the planner performs on the one-move scenario: tile 4
from the goal blank cell (2, 2) to its neighbour (2, 3). -/
def m23 : Move := ⟨4, 2, 2, 2, 3⟩

/-- A concrete chooser that always proposes m23; on every winner set
that equals the singleton of m23 this agrees with random.choice. -/
def chConst : Nat → Finset Move → Move := fun _ _ => m23

/-- A clock whose budget check never trips (a sufficient budget). -/
def tmoOff : Nat → Bool := fun _ => false

/-- A clock whose budget check trips on the first iteration (the
budget is already exhausted). -/
def tmoOn : Nat → Bool := fun _ => true

/-- Injective packing of a move into a natural number. -/
def encMove (m : Move) : Nat :=
  Nat.pair m.tile (Nat.pair m.fi (Nat.pair m.fj (Nat.pair m.ti m.tj)))

theorem encMove_injective : Function.Injective encMove := by
  intro a b h
  simp only [encMove, Nat.pair_eq_pair] at h
  cases a; cases b
  simp_all

/-- A linear order on moves, used only to pick a canonical member of a
nonempty finite set of moves when exhibiting a concrete chooser. -/
instance : LinearOrder Move := LinearOrder.lift' encMove encMove_injective

/-- A canonical member of a finite set of moves. -/
def pickMember (w : Finset Move) : Move :=
  if h : w.Nonempty then w.min' h else ⟨0, 0, 0, 0, 0⟩

theorem pickMember_mem (w : Finset Move) (h : w.Nonempty) : pickMember w ∈ w := by
  rw [pickMember, dif_pos h]
  exact w.min'_mem h

/-- A concrete chooser valid on every nonempty winner set. -/
def chMin : Nat → Finset Move → Move := fun _ => pickMember

theorem chMin_valid : ∀ k (w : Finset Move), w.Nonempty → chMin k w ∈ w :=
  fun _ w h => pickMember_mem w h

/-! ### Basic facts about well-formed states -/

theorem mem_cellsFinset (i j : Nat) : (i, j) ∈ cellsFinset ↔ inGrid i j := by
  simp only [cellsFinset, inGrid, Finset.mem_insert, Finset.mem_singleton, Prod.mk.injEq]
  omega

theorem mem_allCells (i j : Nat) : (i, j) ∈ allCells ↔ inGrid i j := by
  simp only [allCells, inGrid, List.mem_cons, List.not_mem_nil, or_false, Prod.mk.injEq]
  omega

theorem wf_valid {s : State} (h : well_formed s) {f : Fact} (hf : f ∈ s.positions) :
    validFact f := h.1 f hf

theorem wf_cell_card {s : State} (h : well_formed s) {i j : Nat} (hij : inGrid i j) :
    (s.positions.filter (fun f => f.row = i ∧ f.col = j)).card = 1 :=
  h.2.1 (i, j) ((mem_cellsFinset i j).mpr hij)

theorem fact_unique {s : State} (h : well_formed s) {f1 f2 : Fact}
    (h1 : f1 ∈ s.positions) (h2 : f2 ∈ s.positions)
    (hrow : f1.row = f2.row) (hcol : f1.col = f2.col) : f1 = f2 := by
  have hg : inGrid f2.row f2.col := (wf_valid h h2).1
  have hcard := wf_cell_card h hg
  have hle : (s.positions.filter (fun f => f.row = f2.row ∧ f.col = f2.col)).card ≤ 1 :=
    le_of_eq hcard
  exact Finset.card_le_one.mp hle f1
    (Finset.mem_filter.mpr ⟨h1, hrow, hcol⟩)
    f2 (Finset.mem_filter.mpr ⟨h2, rfl, rfl⟩)

theorem cell_fact_exists {s : State} (h : well_formed s) {i j : Nat} (hij : inGrid i j) :
    ∃ f ∈ s.positions, f.row = i ∧ f.col = j := by
  have hcard := wf_cell_card h hij
  have hpos : 0 < (s.positions.filter (fun f => f.row = i ∧ f.col = j)).card := by omega
  obtain ⟨f, hf⟩ := Finset.card_pos.mp hpos
  obtain ⟨hmem, hrow, hcol⟩ := Finset.mem_filter.mp hf
  exact ⟨f, hmem, hrow, hcol⟩

theorem clear_unique {s : State} (h : well_formed s) {f1 f2 : Fact}
    (h1 : f1 ∈ s.positions) (h2 : f2 ∈ s.positions)
    (ht1 : f1.tag = false) (ht2 : f2.tag = false) : f1 = f2 := by
  have hle : (s.positions.filter (fun f => f.tag = false)).card ≤ 1 := le_of_eq h.2.2.1
  exact Finset.card_le_one.mp hle f1 (Finset.mem_filter.mpr ⟨h1, ht1⟩)
    f2 (Finset.mem_filter.mpr ⟨h2, ht2⟩)

theorem tile_unique {s : State} (h : well_formed s) {f1 f2 : Fact}
    (h1 : f1 ∈ s.positions) (h2 : f2 ∈ s.positions) (ht1 : f1.tag = true)
    (ht2 : f2.tag = true) (htile : f1.tile = f2.tile) : f1 = f2 := by
  have hr : 1 ≤ f2.tile ∧ f2.tile ≤ 8 := ((wf_valid h h2).2.1) ht2
  have hle : (s.positions.filter (fun f => f.tag = true ∧ f.tile = f2.tile)).card ≤ 1 :=
    le_of_eq (h.2.2.2 f2.tile (Finset.mem_Icc.mpr hr))
  exact Finset.card_le_one.mp hle f1 (Finset.mem_filter.mpr ⟨h1, ht1, htile⟩)
    f2 (Finset.mem_filter.mpr ⟨h2, ht2, rfl⟩)

theorem wf_card {s : State} (h : well_formed s) : s.positions.card = 9 := by
  have hmap : ∀ f ∈ s.positions, (f.row, f.col) ∈ cellsFinset := by
    intro f hf
    exact (mem_cellsFinset f.row f.col).mpr (wf_valid h hf).1
  have hsum := Finset.card_eq_sum_card_fiberwise hmap
  have hcong : ∀ c ∈ cellsFinset,
      (s.positions.filter (fun f => (f.row, f.col) = c)).card =
      (s.positions.filter (fun f => f.row = c.1 ∧ f.col = c.2)).card := by
    intro c _
    congr 1
    apply Finset.filter_congr
    intro f _
    simp [Prod.ext_iff]
  rw [hsum, Finset.sum_congr rfl hcong, Finset.sum_congr rfl (fun c hc => h.2.1 c hc)]
  decide

/-! ### Characterizing the State queries on well-formed states -/

theorem find_unique {α : Type _} (p : α → Bool) (a : α) :
    ∀ l : List α, a ∈ l → p a = true → (∀ b ∈ l, p b = true → b = a) →
      l.find? p = some a := by
  intro l
  induction l with
  | nil => intro h; exact absurd h (List.not_mem_nil a)
  | cons c cs ih =>
    intro hmem hpa huniq
    by_cases hc : p c = true
    · have : c = a := huniq c (List.mem_cons_self c cs) hc
      subst this
      simp [List.find?, hc]
    · have hca : c ≠ a := fun h => hc (h ▸ hpa)
      have hmem2 : a ∈ cs := by
        rcases List.mem_cons.mp hmem with h | h
        · exact absurd h.symm hca
        · exact h
      have := ih hmem2 hpa (fun b hb hpb => huniq b (List.mem_cons_of_mem c hb) hpb)
      simpa [List.find?, hc] using this

theorem findSome_unique {α β : Type _} (P : α → Option β) (a : α) (v : β) :
    ∀ l : List α, a ∈ l → P a = some v → (∀ b ∈ l, b ≠ a → P b = none) →
      l.findSome? P = some v := by
  intro l
  induction l with
  | nil => intro h; exact absurd h (List.not_mem_nil a)
  | cons c cs ih =>
    intro hmem hpa huniq
    by_cases hc : c = a
    · subst hc
      simp [List.findSome?, hpa]
    · have hnone : P c = none := huniq c (List.mem_cons_self c cs) hc
      have hmem2 : a ∈ cs := by
        rcases List.mem_cons.mp hmem with h | h
        · exact absurd h.symm hc
        · exact h
      have := ih hmem2 hpa (fun b hb hne => huniq b (List.mem_cons_of_mem c hb) hne)
      simpa [List.findSome?, hnone] using this

theorem clear_fact_shape {s : State} (h : well_formed s) {f : Fact}
    (hf : f ∈ s.positions) (htag : f.tag = false) : f = clearF f.row f.col := by
  have h0 : f.tile = 0 := (wf_valid h hf).2.2 htag
  cases f
  simp_all [clearF]

theorem get_clear_spec {s : State} (h : well_formed s) :
    ∃ ci cj, s.get_clear = some (ci, cj) ∧ clearF ci cj ∈ s.positions ∧ inGrid ci cj := by
  have hone := h.2.2.1
  have hpos : 0 < (s.positions.filter (fun f => f.tag = false)).card := by omega
  obtain ⟨f, hf⟩ := Finset.card_pos.mp hpos
  obtain ⟨hmem, htag⟩ := Finset.mem_filter.mp hf
  have hshape := clear_fact_shape h hmem htag
  have hgrid : inGrid f.row f.col := (wf_valid h hmem).1
  refine ⟨f.row, f.col, ?_, hshape ▸ hmem, hgrid⟩
  apply find_unique _ (f.row, f.col)
  · exact (mem_allCells f.row f.col).mpr hgrid
  · simpa using hshape ▸ hmem
  · intro c _ hpc
    have hmc : clearF c.1 c.2 ∈ s.positions := by simpa using hpc
    have heq : clearF c.1 c.2 = f := clear_unique h hmc hmem rfl htag
    have h12 : c.1 = f.row ∧ c.2 = f.col := by
      have h2 := heq.trans hshape
      simpa [clearF, Fact.mk.injEq] using h2
    exact Prod.ext h12.1 h12.2

theorem get_clear_mem {s : State} (h : well_formed s) {ci cj : Nat}
    (hgc : s.get_clear = some (ci, cj)) :
    clearF ci cj ∈ s.positions ∧ inGrid ci cj := by
  obtain ⟨a, b, hab, hmem, hgrid⟩ := get_clear_spec h
  rw [hgc] at hab
  have h1 := Option.some.inj hab
  rw [Prod.mk.injEq] at h1
  obtain ⟨h1, h2⟩ := h1
  subst h1; subst h2
  exact ⟨hmem, hgrid⟩

theorem get_number_spec {s : State} (h : well_formed s) {f : Fact}
    (hf : f ∈ s.positions) : s.get_number f.row f.col = some f.tile := by
  have hval := wf_valid h hf
  have htile : f.tile < 9 := by
    rcases Bool.eq_false_or_eq_true f.tag with ht | ht
    · have := hval.2.1 ht; omega
    · have := hval.2.2 ht; omega
  apply findSome_unique _ f.tile
  · exact List.mem_range.mpr htile
  · rcases Bool.eq_false_or_eq_true f.tag with ht | ht
    · have hfe : f = (⟨true, f.tile, f.row, f.col⟩ : Fact) := by
        cases f; simp_all
      rw [← hfe]
      simp [hf]
    · have hfe : f = (⟨false, f.tile, f.row, f.col⟩ : Fact) := by
        cases f; simp_all
      have hno : (⟨true, f.tile, f.row, f.col⟩ : Fact) ∉ s.positions := by
        intro hmem
        have heq := fact_unique h hmem hf rfl rfl
        rw [hfe] at heq
        exact Bool.noConfusion (congrArg Fact.tag heq)
      simp [hno, ← hfe, hf]
  · intro u _ hu
    have hn1 : (⟨true, u, f.row, f.col⟩ : Fact) ∉ s.positions := by
      intro hmem
      have := fact_unique h hmem hf rfl rfl
      exact hu (congrArg Fact.tile this)
    have hn2 : (⟨false, u, f.row, f.col⟩ : Fact) ∉ s.positions := by
      intro hmem
      have := fact_unique h hmem hf rfl rfl
      exact hu (congrArg Fact.tile this)
    simp [hn1, hn2]

theorem get_number_total {s : State} (h : well_formed s) {i j : Nat} (hij : inGrid i j) :
    ∃ f ∈ s.positions, f.row = i ∧ f.col = j ∧ s.get_number i j = some f.tile := by
  obtain ⟨f, hmem, hrow, hcol⟩ := cell_fact_exists h hij
  refine ⟨f, hmem, hrow, hcol, ?_⟩
  rw [← hrow, ← hcol]
  exact get_number_spec h hmem

theorem occupant_on {s : State} (h : well_formed s) {i j ci cj : Nat} (hij : inGrid i j)
    (hcl : clearF ci cj ∈ s.positions) (hne : ¬(i = ci ∧ j = cj)) :
    ∃ t, 1 ≤ t ∧ t ≤ 8 ∧ onF t i j ∈ s.positions ∧ s.get_number i j = some t := by
  obtain ⟨f, hmem, hrow, hcol, hnum⟩ := get_number_total h hij
  have htag : f.tag = true := by
    rcases Bool.eq_false_or_eq_true f.tag with ht | ht
    · exact ht
    · have hshape := clear_fact_shape h hmem ht
      have heq : clearF f.row f.col = clearF ci cj :=
        clear_unique h (hshape ▸ hmem) hcl rfl rfl
      have hri : f.row = ci := congrArg Fact.row heq
      have hrj : f.col = cj := congrArg Fact.col heq
      exact absurd ⟨hrow ▸ hri, hcol ▸ hrj⟩ hne
  have hrange := (wf_valid h hmem).2.1 htag
  have hfe : f = onF f.tile i j := by
    cases f; simp_all [onF]
  exact ⟨f.tile, hrange.1, hrange.2, hfe ▸ hmem, hnum⟩


/-! ### Characterizing the candidate moves -/

theorem gpm_step_eq {s : State} {ci cj ni nj : Nat} (pm : Finset Move) (g : Bool)
    (hg : g = true → ∃ t, s.get_number ni nj = some t) :
    gpm_step s ci cj (some pm) g ni nj =
      some ((if g = true then {(⟨(s.get_number ni nj).getD 0, ci, cj, ni, nj⟩ : Move)}
        else ∅) ∪ pm) := by
  cases g with
  | false => simp [gpm_step]
  | true =>
    obtain ⟨t, ht⟩ := hg rfl
    simp [gpm_step, ht, Finset.insert_eq]

theorem gpm_eq {s : State} (h : well_formed s) {ci cj : Nat}
    (hgc : s.get_clear = some (ci, cj)) :
    s.get_possible_moves = some (
      (if cj + 1 < 4 then {(⟨(s.get_number ci (cj+1)).getD 0, ci, cj, ci, cj+1⟩ : Move)} else ∅) ∪
      ((if 0 < cj - 1 then {(⟨(s.get_number ci (cj-1)).getD 0, ci, cj, ci, cj-1⟩ : Move)} else ∅) ∪
       ((if ci + 1 < 4 then {(⟨(s.get_number (ci+1) cj).getD 0, ci, cj, ci+1, cj⟩ : Move)} else ∅) ∪
        ((if 0 < ci - 1 then {(⟨(s.get_number (ci-1) cj).getD 0, ci, cj, ci-1, cj⟩ : Move)} else ∅) ∪
          ∅)))) := by
  obtain ⟨hcl, hgrid⟩ := get_clear_mem h hgc
  have hnum : ∀ ni nj, inGrid ni nj → ∃ t, s.get_number ni nj = some t := by
    intro ni nj hij
    obtain ⟨f, _, _, _, hn⟩ := get_number_total h hij
    exact ⟨f.tile, hn⟩
  have hig : 1 ≤ ci ∧ ci ≤ 3 ∧ 1 ≤ cj ∧ cj ≤ 3 := hgrid
  have h1 : decide (0 < ci - 1) = true → ∃ t, s.get_number (ci - 1) cj = some t := by
    intro hd
    have hp := of_decide_eq_true hd
    refine hnum _ _ ?_
    unfold inGrid
    omega
  have h2 : decide (ci + 1 < 4) = true → ∃ t, s.get_number (ci + 1) cj = some t := by
    intro hd
    have hp := of_decide_eq_true hd
    refine hnum _ _ ?_
    unfold inGrid
    omega
  have h3 : decide (0 < cj - 1) = true → ∃ t, s.get_number ci (cj - 1) = some t := by
    intro hd
    have hp := of_decide_eq_true hd
    refine hnum _ _ ?_
    unfold inGrid
    omega
  have h4 : decide (cj + 1 < 4) = true → ∃ t, s.get_number ci (cj + 1) = some t := by
    intro hd
    have hp := of_decide_eq_true hd
    refine hnum _ _ ?_
    unfold inGrid
    omega
  rw [State.get_possible_moves, hgc]
  show gpm_step s ci cj
      (gpm_step s ci cj
        (gpm_step s ci cj
          (gpm_step s ci cj (some ∅) (decide (0 < ci - 1)) (ci - 1) cj)
          (decide (ci + 1 < 4)) (ci + 1) cj)
        (decide (0 < cj - 1)) ci (cj - 1))
      (decide (cj + 1 < 4)) ci (cj + 1) = _
  rw [gpm_step_eq ∅ _ h1, gpm_step_eq _ _ h2, gpm_step_eq _ _ h3, gpm_step_eq _ _ h4]
  simp only [decide_eq_true_eq]

theorem mem_ite_singleton {m x : Move} {P : Prop} [Decidable P]
    (hmx : m ∈ (if P then ({x} : Finset Move) else ∅)) : P ∧ m = x := by
  by_cases hP : P
  · rw [if_pos hP] at hmx
    exact ⟨hP, Finset.mem_singleton.mp hmx⟩
  · rw [if_neg hP] at hmx
    exact absurd hmx (Finset.not_mem_empty m)

theorem cand_char {s : State} (h : well_formed s) {ci cj : Nat} {M : Finset Move}
    (hgc : s.get_clear = some (ci, cj)) (hM : s.get_possible_moves = some M)
    {m : Move} (hm : m ∈ M) :
    ∃ t ni nj, m = ⟨t, ci, cj, ni, nj⟩ ∧ 1 ≤ t ∧ t ≤ 8 ∧
      onF t ni nj ∈ s.positions ∧ clearF ci cj ∈ s.positions ∧
      inGrid ci cj ∧ inGrid ni nj ∧ adjacentCells ci cj ni nj ∧
      s.get_number ni nj = some t := by
  obtain ⟨hcl, hgrid⟩ := get_clear_mem h hgc
  rw [gpm_eq h hgc] at hM
  have hM2 := Option.some.inj hM
  subst hM2
  have hig : 1 ≤ ci ∧ ci ≤ 3 ∧ 1 ≤ cj ∧ cj ≤ 3 := hgrid
  simp only [Finset.mem_union, Finset.union_empty, Finset.not_mem_empty, or_false] at hm
  have main : ∀ ni nj, inGrid ni nj → ¬(ni = ci ∧ nj = cj) →
      m = ⟨(s.get_number ni nj).getD 0, ci, cj, ni, nj⟩ →
      adjacentCells ci cj ni nj →
      ∃ t ni2 nj2, m = ⟨t, ci, cj, ni2, nj2⟩ ∧ 1 ≤ t ∧ t ≤ 8 ∧
        onF t ni2 nj2 ∈ s.positions ∧ clearF ci cj ∈ s.positions ∧
        inGrid ci cj ∧ inGrid ni2 nj2 ∧ adjacentCells ci cj ni2 nj2 ∧
        s.get_number ni2 nj2 = some t := by
    intro ni nj hij hne hmeq hadj
    obtain ⟨t, ht1, ht8, hon, hnum⟩ := occupant_on h hij hcl hne
    refine ⟨t, ni, nj, ?_, ht1, ht8, hon, hcl, hgrid, hij, hadj, hnum⟩
    rw [hmeq, hnum]
    rfl
  rcases hm with hm | hm | hm | hm
  · obtain ⟨hP, hmeq⟩ := mem_ite_singleton hm
    refine main ci (cj + 1) ?_ (by rintro ⟨hc1, hc2⟩; omega) hmeq ?_
    · unfold inGrid; omega
    · unfold adjacentCells; omega
  · obtain ⟨hP, hmeq⟩ := mem_ite_singleton hm
    refine main ci (cj - 1) ?_ (by rintro ⟨hc1, hc2⟩; omega) hmeq ?_
    · unfold inGrid; omega
    · unfold adjacentCells; omega
  · obtain ⟨hP, hmeq⟩ := mem_ite_singleton hm
    refine main (ci + 1) cj ?_ (by rintro ⟨hc1, hc2⟩; omega) hmeq ?_
    · unfold inGrid; omega
    · unfold adjacentCells; omega
  · obtain ⟨hP, hmeq⟩ := mem_ite_singleton hm
    refine main (ci - 1) cj ?_ (by rintro ⟨hc1, hc2⟩; omega) hmeq ?_
    · unfold inGrid; omega
    · unfold adjacentCells; omega

/-! ### The operator table -/

theorem mem_ite_list {m x : Move} {P : Prop} [Decidable P] (hP : P) (hmx : m = x) :
    m ∈ (if P then [x] else []) := by
  rw [if_pos hP, hmx]
  exact List.mem_singleton.mpr rfl

theorem mem_neighborMoves {t i j k l : Nat} (hij : inGrid i j) (hkl : inGrid k l)
    (hadj : adjacentCells i j k l) : (⟨t, i, j, k, l⟩ : Move) ∈ neighborMoves t i j := by
  unfold neighborMoves
  obtain ⟨hi1, hi3, hj1, hj3⟩ := hij
  obtain ⟨hk1, hk3, hl1, hl3⟩ := hkl
  rcases hadj with ⟨hk, hl⟩ | ⟨hk, hl⟩ | ⟨hk, hl⟩ | ⟨hk, hl⟩
  · refine List.mem_append_left _ (List.mem_append_left _
      (List.mem_append_right _ (mem_ite_list (by omega) ?_)))
    subst hl; rw [hk]
  · refine List.mem_append_left _ (List.mem_append_left _
      (List.mem_append_left _ (mem_ite_list (by omega) ?_)))
    subst hl
    have hik : k = i - 1 := by omega
    rw [hik]
  · refine List.mem_append_right _ (mem_ite_list (by omega) ?_)
    subst hk; rw [hl]
  · refine List.mem_append_left _ (List.mem_append_right _
      (mem_ite_list (by omega) ?_))
    subst hk
    have hjl : l = j - 1 := by omega
    rw [hjl]

theorem mem_possible_operators {t i j k l : Nat} (ht1 : 1 ≤ t) (ht8 : t ≤ 8)
    (hij : inGrid i j) (hkl : inGrid k l) (hadj : adjacentCells i j k l) :
    (⟨t, i, j, k, l⟩ : Move) ∈ possible_operators := by
  have hij2 : 1 ≤ i ∧ i ≤ 3 ∧ 1 ≤ j ∧ j ≤ 3 := hij
  obtain ⟨hi1, hi3, hj1, hj3⟩ := hij2
  unfold possible_operators
  rw [List.mem_flatMap]
  refine ⟨t, by rw [List.mem_range'_1]; omega, ?_⟩
  rw [List.mem_flatMap]
  refine ⟨i, by rw [List.mem_range'_1]; omega, ?_⟩
  rw [List.mem_flatMap]
  refine ⟨j, by rw [List.mem_range'_1]; omega, ?_⟩
  exact mem_neighborMoves hij hkl hadj

theorem lookup_map_self (g : Move → Op) (m : Move) :
    ∀ l : List Move, m ∈ l → (l.map (fun x => (x, g x))).lookup m = some (g m) := by
  intro l
  induction l with
  | nil => intro h; exact absurd h (List.not_mem_nil m)
  | cons a as ih =>
    intro hmem
    by_cases hma : m = a
    · subst hma
      simp [List.lookup]
    · have hmem2 : m ∈ as := by
        rcases List.mem_cons.mp hmem with h | h
        · exact absurd h hma
        · exact h
      have hbeq : (m == a) = false := beq_false_of_ne hma
      simp [List.lookup, hbeq, ih hmem2]

theorem lookup_op_some {m : Move} (hm : m ∈ possible_operators) :
    lookup_op operators_list m = some (opOf m) :=
  lookup_map_self opOf m possible_operators hm

/-! ### The regression step on well-formed states -/

theorem filter_sdiff_eq {α : Type _} [DecidableEq α] (s t : Finset α) (p : α → Prop)
    [DecidablePred p] : (s \ t).filter p = s.filter p \ t := by
  ext x
  simp only [Finset.mem_filter, Finset.mem_sdiff]
  tauto

theorem facts_at_cell_eq {s : State} (h : well_formed s) {f : Fact}
    (hf : f ∈ s.positions) :
    s.positions.filter (fun g => g.row = f.row ∧ g.col = f.col) = {f} := by
  apply Finset.eq_singleton_iff_unique_mem.mpr
  refine ⟨Finset.mem_filter.mpr ⟨hf, rfl, rfl⟩, ?_⟩
  intro x hx
  obtain ⟨hxm, hr, hc⟩ := Finset.mem_filter.mp hx
  exact fact_unique h hxm hf hr hc

theorem clear_filter_eq {s : State} (h : well_formed s) {ci cj : Nat}
    (hcl : clearF ci cj ∈ s.positions) :
    s.positions.filter (fun f => f.tag = false) = {clearF ci cj} := by
  apply Finset.eq_singleton_iff_unique_mem.mpr
  refine ⟨Finset.mem_filter.mpr ⟨hcl, rfl⟩, ?_⟩
  intro x hx
  obtain ⟨hxm, hxt⟩ := Finset.mem_filter.mp hx
  exact clear_unique h hxm hcl hxt rfl

theorem tile_filter_eq {s : State} (h : well_formed s) {t ni nj : Nat}
    (hon : onF t ni nj ∈ s.positions) :
    s.positions.filter (fun f => f.tag = true ∧ f.tile = t) = {onF t ni nj} := by
  apply Finset.eq_singleton_iff_unique_mem.mpr
  refine ⟨Finset.mem_filter.mpr ⟨hon, rfl, rfl⟩, ?_⟩
  intro x hx
  obtain ⟨hxm, hxt, hxtile⟩ := Finset.mem_filter.mp hx
  exact tile_unique h hxm hon hxt rfl hxtile

theorem filter_cells_eq_sdiff {s : State} (h : well_formed s) {t ci cj ni nj : Nat}
    (hcl : clearF ci cj ∈ s.positions) (hon : onF t ni nj ∈ s.positions) :
    s.positions.filter
        (fun f => ¬((f.row = ci ∧ f.col = cj) ∨ (f.row = ni ∧ f.col = nj))) =
      s.positions \ {clearF ci cj, onF t ni nj} := by
  ext f
  simp only [Finset.mem_filter, Finset.mem_sdiff, Finset.mem_insert, Finset.mem_singleton]
  constructor
  · rintro ⟨hf, hno⟩
    refine ⟨hf, ?_⟩
    rintro (rfl | rfl)
    · exact hno (Or.inl ⟨rfl, rfl⟩)
    · exact hno (Or.inr ⟨rfl, rfl⟩)
  · rintro ⟨hf, hne⟩
    refine ⟨hf, ?_⟩
    rintro (⟨hr, hc⟩ | ⟨hr, hc⟩)
    · exact hne (Or.inl (fact_unique h hf hcl hr hc))
    · exact hne (Or.inr (fact_unique h hf hon hr hc))

theorem update_eq {s : State} (h : well_formed s) {t ci cj ni nj : Nat}
    (hcl : clearF ci cj ∈ s.positions) (hon : onF t ni nj ∈ s.positions)
    (hkey : (⟨t, ci, cj, ni, nj⟩ : Move) ∈ possible_operators) :
    update_current_state operators_list s ⟨t, ci, cj, ni, nj⟩ =
      some ⟨(s.positions \ {clearF ci cj, onF t ni nj}) ∪ {onF t ci cj, clearF ni nj}⟩ := by
  rw [update_current_state, lookup_op_some hkey, Option.map_some']
  congr 1
  apply State.ext
  show s.positions.filter _ ∪ (opOf ⟨t, ci, cj, ni, nj⟩).preconditions = _
  rw [filter_cells_eq_sdiff h hcl hon]
  rfl

theorem valid_onF {t ci cj : Nat} (hg : inGrid ci cj) (h1 : 1 ≤ t) (h8 : t ≤ 8) :
    validFact (onF t ci cj) :=
  ⟨hg, fun _ => ⟨h1, h8⟩, fun hb => Bool.noConfusion hb⟩

theorem valid_clearF {ni nj : Nat} (hg : inGrid ni nj) : validFact (clearF ni nj) :=
  ⟨hg, fun hb => Bool.noConfusion hb, fun _ => rfl⟩

theorem swap_wf {s : State} (h : well_formed s) {t ci cj ni nj : Nat}
    (hcl : clearF ci cj ∈ s.positions) (hon : onF t ni nj ∈ s.positions) :
    well_formed
      ⟨(s.positions \ {clearF ci cj, onF t ni nj}) ∪ {onF t ci cj, clearF ni nj}⟩ := by
  have hvc := wf_valid h hcl
  have hvo := wf_valid h hon
  have hgc : inGrid ci cj := hvc.1
  have hgn : inGrid ni nj := hvo.1
  have htr : 1 ≤ t ∧ t ≤ 8 := hvo.2.1 rfl
  have hcne : ¬(ni = ci ∧ nj = cj) := by
    rintro ⟨rfl, rfl⟩
    have heq := fact_unique h hcl hon rfl rfl
    exact Bool.noConfusion (congrArg Fact.tag heq)
  refine ⟨?_, ?_, ?_, ?_⟩
  · intro f hf
    rcases Finset.mem_union.mp hf with hf | hf
    · exact wf_valid h (Finset.mem_sdiff.mp hf).1
    · rcases Finset.mem_insert.mp hf with rfl | hf
      · exact valid_onF hgc htr.1 htr.2
      · rw [Finset.mem_singleton.mp hf]
        exact valid_clearF hgn
  · rintro ⟨c1, c2⟩ hc
    rw [Finset.filter_union, filter_sdiff_eq]
    by_cases h1 : c1 = ci ∧ c2 = cj
    · obtain ⟨rfl, rfl⟩ := h1
      have hA : s.positions.filter (fun f => f.row = c1 ∧ f.col = c2) = {clearF c1 c2} :=
        facts_at_cell_eq h hcl
      rw [hA]
      have hD : ({clearF c1 c2} : Finset Fact) \ {clearF c1 c2, onF t ni nj} = ∅ := by
        ext f
        simp only [Finset.mem_sdiff, Finset.mem_singleton, Finset.mem_insert,
          Finset.not_mem_empty, iff_false]
        rintro ⟨rfl, hno⟩
        exact hno (Or.inl rfl)
      have hI : ({onF t c1 c2, clearF ni nj} : Finset Fact).filter
          (fun f => f.row = c1 ∧ f.col = c2) = {onF t c1 c2} := by
        rw [Finset.filter_insert, if_pos ⟨rfl, rfl⟩, Finset.filter_singleton,
          if_neg (by simpa [clearF] using hcne)]
        simp
      rw [hD, hI]
      simp
    · by_cases h2 : c1 = ni ∧ c2 = nj
      · obtain ⟨rfl, rfl⟩ := h2
        have hA : s.positions.filter (fun f => f.row = c1 ∧ f.col = c2) = {onF t c1 c2} :=
          facts_at_cell_eq h hon
        rw [hA]
        have hD : ({onF t c1 c2} : Finset Fact) \ {clearF ci cj, onF t c1 c2} = ∅ := by
          ext f
          simp only [Finset.mem_sdiff, Finset.mem_singleton, Finset.mem_insert,
            Finset.not_mem_empty, iff_false]
          rintro ⟨rfl, hno⟩
          exact hno (Or.inr rfl)
        have hI : ({onF t ci cj, clearF c1 c2} : Finset Fact).filter
            (fun f => f.row = c1 ∧ f.col = c2) = {clearF c1 c2} := by
          rw [Finset.filter_insert,
            if_neg (by simpa [onF] using fun ha hb => h1 ⟨ha.symm, hb.symm⟩),
            Finset.filter_singleton, if_pos ⟨rfl, rfl⟩]
        rw [hD, hI]
        simp
      · have hA := h.2.1 (c1, c2) hc
        have hD : s.positions.filter (fun f => f.row = c1 ∧ f.col = c2) \
            {clearF ci cj, onF t ni nj} =
            s.positions.filter (fun f => f.row = c1 ∧ f.col = c2) := by
          ext f
          simp only [Finset.mem_sdiff, Finset.mem_filter, Finset.mem_insert,
            Finset.mem_singleton]
          constructor
          · rintro ⟨hf, _⟩
            exact hf
          · rintro ⟨hf, hr, hcc⟩
            refine ⟨⟨hf, hr, hcc⟩, ?_⟩
            rintro (rfl | rfl)
            · exact h1 ⟨hr.symm ▸ rfl, hcc.symm ▸ rfl⟩
            · exact h2 ⟨hr.symm ▸ rfl, hcc.symm ▸ rfl⟩
        have hI : ({onF t ci cj, clearF ni nj} : Finset Fact).filter
            (fun f => f.row = c1 ∧ f.col = c2) = ∅ := by
          rw [Finset.filter_insert,
            if_neg (by simpa [onF] using fun ha hb => h1 ⟨ha.symm, hb.symm⟩),
            Finset.filter_singleton,
            if_neg (by simpa [clearF] using fun ha hb => h2 ⟨ha.symm, hb.symm⟩)]
        rw [hD, hI, Finset.union_empty]
        exact hA
  · rw [Finset.filter_union, filter_sdiff_eq, clear_filter_eq h hcl]
    have hD : ({clearF ci cj} : Finset Fact) \ {clearF ci cj, onF t ni nj} = ∅ := by
      ext f
      simp only [Finset.mem_sdiff, Finset.mem_singleton, Finset.mem_insert,
        Finset.not_mem_empty, iff_false]
      rintro ⟨rfl, hno⟩
      exact hno (Or.inl rfl)
    have hI : ({onF t ci cj, clearF ni nj} : Finset Fact).filter
        (fun f => f.tag = false) = {clearF ni nj} := by
      rw [Finset.filter_insert, if_neg (by simp [onF]), Finset.filter_singleton]
      simp [clearF]
    rw [hD, hI]
    simp
  · intro t2 ht2
    rw [Finset.filter_union, filter_sdiff_eq]
    by_cases htt : t2 = t
    · subst htt
      rw [tile_filter_eq h hon]
      have hD : ({onF t2 ni nj} : Finset Fact) \ {clearF ci cj, onF t2 ni nj} = ∅ := by
        ext f
        simp only [Finset.mem_sdiff, Finset.mem_singleton, Finset.mem_insert,
          Finset.not_mem_empty, iff_false]
        rintro ⟨rfl, hno⟩
        exact hno (Or.inr rfl)
      have hI : ({onF t2 ci cj, clearF ni nj} : Finset Fact).filter
          (fun f => f.tag = true ∧ f.tile = t2) = {onF t2 ci cj} := by
        rw [Finset.filter_insert, if_pos ⟨rfl, rfl⟩, Finset.filter_singleton,
          if_neg (by simp [clearF])]
        simp
      rw [hD, hI]
      simp
    · have hA := h.2.2.2 t2 ht2
      have hD : s.positions.filter (fun f => f.tag = true ∧ f.tile = t2) \
          {clearF ci cj, onF t ni nj} =
          s.positions.filter (fun f => f.tag = true ∧ f.tile = t2) := by
        ext f
        simp only [Finset.mem_sdiff, Finset.mem_filter, Finset.mem_insert,
          Finset.mem_singleton]
        constructor
        · rintro ⟨hf, _⟩
          exact hf
        · rintro ⟨hf, htag, htile⟩
          refine ⟨⟨hf, htag, htile⟩, ?_⟩
          rintro (rfl | rfl)
          · exact Bool.noConfusion htag
          · exact htt htile.symm
      have hI : ({onF t ci cj, clearF ni nj} : Finset Fact).filter
          (fun f => f.tag = true ∧ f.tile = t2) = ∅ := by
        rw [Finset.filter_insert,
          if_neg (fun hh => htt (Eq.symm hh.2)),
          Finset.filter_singleton, if_neg (by simp [clearF])]
      rw [hD, hI, Finset.union_empty]
      exact hA

theorem forward_inverse {s : State} (h : well_formed s) {t ci cj ni nj : Nat}
    (hcl : clearF ci cj ∈ s.positions) (hon : onF t ni nj ∈ s.positions) :
    apply_move_forward
      ⟨(s.positions \ {clearF ci cj, onF t ni nj}) ∪ {onF t ci cj, clearF ni nj}⟩
      ⟨t, ci, cj, ni, nj⟩ = some s := by
  have hno1 : onF t ci cj ∉ s.positions := by
    intro hmem
    have heq := fact_unique h hmem hcl rfl rfl
    exact Bool.noConfusion (congrArg Fact.tag heq)
  have hno2 : clearF ni nj ∉ s.positions := by
    intro hmem
    have heq := fact_unique h hmem hon rfl rfl
    exact Bool.noConfusion (congrArg Fact.tag heq)
  rw [apply_move_forward]
  rw [if_pos ?hpre]
  case hpre =>
    constructor
    · exact Finset.mem_union_right _ (Finset.mem_insert_self _ _)
    · exact Finset.mem_union_right _
        (Finset.mem_insert_of_mem (Finset.mem_singleton_self _))
  congr 1
  apply State.ext
  ext f
  simp only [Finset.mem_union, Finset.mem_sdiff, Finset.mem_insert, Finset.mem_singleton]
  constructor
  · rintro (⟨hf, hno⟩ | hf)
    · rcases hf with ⟨hf, _⟩ | hf
      · exact hf
      · exact absurd hf hno
    · rcases hf with rfl | rfl
      · exact hon
      · exact hcl
  · intro hf
    by_cases h1 : f = clearF ci cj
    · exact Or.inr (Or.inr h1)
    · by_cases h2 : f = onF t ni nj
      · exact Or.inr (Or.inl h2)
      · refine Or.inl ⟨Or.inl ⟨hf, ?_⟩, ?_⟩
        · rintro (rfl | rfl)
          · exact h1 rfl
          · exact h2 rfl
        · rintro (rfl | rfl)
          · exact hno1 hf
          · exact hno2 hf

/-- A candidate move of a well-formed state always regresses to a
well-formed state, and forward application of that move to the
regressed state restores the original state. -/
theorem cand_regress {s : State} (h : well_formed s) {ci cj : Nat} {M : Finset Move}
    (hgc : s.get_clear = some (ci, cj)) (hM : s.get_possible_moves = some M)
    {m : Move} (hm : m ∈ M) :
    ∃ s2, update_current_state operators_list s m = some s2 ∧ well_formed s2 ∧
      apply_move_forward s2 m = some s := by
  obtain ⟨t, ni, nj, rfl, ht1, ht8, hon, hcl, hgci, hgni, hadj, hnum⟩ :=
    cand_char h hgc hM hm
  have hkey := mem_possible_operators ht1 ht8 hgci hgni hadj
  exact ⟨_, update_eq h hcl hon hkey, swap_wf h hcl hon, forward_inverse h hcl hon⟩

/-- Every candidate move of a well-formed state is a key of the
operator table, with tile 1..8 and adjacent in-grid cells. -/
theorem cand_key {s : State} (h : well_formed s) {ci cj : Nat} {M : Finset Move}
    (hgc : s.get_clear = some (ci, cj)) (hM : s.get_possible_moves = some M)
    {m : Move} (hm : m ∈ M) :
    m ∈ possible_operators ∧ lookup_op operators_list m = some (opOf m) ∧
      1 ≤ m.tile ∧ m.tile ≤ 8 ∧ inGrid m.fi m.fj ∧ inGrid m.ti m.tj ∧
      adjacentCells m.fi m.fj m.ti m.tj := by
  obtain ⟨t, ni, nj, rfl, ht1, ht8, hon, hcl, hgci, hgni, hadj, hnum⟩ :=
    cand_char h hgc hM hm
  have hkey := mem_possible_operators ht1 ht8 hgci hgni hadj
  exact ⟨hkey, lookup_op_some hkey, ht1, ht8, hgci, hgni, hadj⟩

/-- When both states are well-formed nine-fact boards, an intersection
of at least nine facts forces the two fact sets to be equal. -/
theorem states_eq_of_inter {a b : State} (ha : well_formed a) (hb : well_formed b)
    (hcard : 9 ≤ (a.positions ∩ b.positions).card) : a.positions = b.positions := by
  have hca := wf_card ha
  have hcb := wf_card hb
  have h1 : a.positions ∩ b.positions ⊆ a.positions := Finset.inter_subset_left
  have h2 : a.positions ∩ b.positions = a.positions :=
    Finset.eq_of_subset_of_card_le h1 (by omega)
  have h3 : a.positions ⊆ b.positions := by
    intro x hx
    rw [← h2] at hx
    exact (Finset.mem_inter.mp hx).2
  exact Finset.eq_of_subset_of_card_le h3 (by omega)

/-! ### The pick_move loop -/

theorem lookup_map_inv (g : Move → Op) (m : Move) :
    ∀ l : List Move, ∀ op, (l.map (fun x => (x, g x))).lookup m = some op → op = g m := by
  intro l
  induction l with
  | nil => intro op h; exact absurd h (by simp)
  | cons a as ih =>
    intro op h
    by_cases hma : m = a
    · subst hma
      simp [List.lookup] at h
      exact h.symm
    · have hbeq : (m == a) = false := beq_false_of_ne hma
      rw [List.map_cons, List.lookup_cons] at h
      rw [hbeq] at h
      exact ih op h

theorem move_score_le_two (ini : State) (m : Move) :
    move_score operators_list ini m ≤ 2 := by
  cases hlk : lookup_op operators_list m with
  | none => simp [move_score, hlk]
  | some op =>
    have hop : op = opOf m := lookup_map_inv opOf m possible_operators op hlk
    subst hop
    simp only [move_score, hlk, Option.map_some', Option.getD_some]
    calc ((opOf m).preconditions ∩ ini.positions).card
        ≤ (opOf m).preconditions.card := Finset.card_le_card Finset.inter_subset_left
      _ ≤ 2 := by
        apply le_trans (Finset.card_insert_le _ _)
        simp

theorem pick_move_loop_total (tbl : List (Move × Op)) (ini : State) :
    ∀ l : List Move, (∀ m ∈ l, (lookup_op tbl m).isSome) →
      ∀ acc, ∃ r, pick_move_loop tbl ini l acc = some r := by
  intro l
  induction l with
  | nil => intro _ acc; exact ⟨acc, rfl⟩
  | cons m rest ih =>
    intro hkeys acc
    obtain ⟨W, p⟩ := acc
    obtain ⟨op, hop⟩ := Option.isSome_iff_exists.mp (hkeys m (List.mem_cons_self m rest))
    have hrest : ∀ m2 ∈ rest, (lookup_op tbl m2).isSome :=
      fun m2 hm2 => hkeys m2 (List.mem_cons_of_mem m hm2)
    rw [pick_move_loop, hop]
    dsimp only
    by_cases h1 : p < ((op.preconditions ∩ ini.positions).card : Int)
    · rw [if_pos h1]
      exact ih hrest _
    · rw [if_neg h1]
      by_cases h2 : ((op.preconditions ∩ ini.positions).card : Int) = p
      · rw [if_pos h2]
        exact ih hrest _
      · rw [if_neg h2]
        exact ih hrest _

theorem pick_move_loop_sound (tbl : List (Move × Op)) (ini : State) :
    ∀ (l : List Move) (W : Finset Move) (p : Int) (r : Finset Move × Int),
      (∀ m ∈ W, (move_score tbl ini m : Int) = p) →
      pick_move_loop tbl ini l (W, p) = some r →
      (∀ m ∈ r.1, (m ∈ l ∨ m ∈ W) ∧ (move_score tbl ini m : Int) = r.2) ∧
      (∀ m ∈ l, (move_score tbl ini m : Int) ≤ r.2) ∧
      p ≤ r.2 ∧
      (∀ m ∈ l, (move_score tbl ini m : Int) = r.2 → m ∈ r.1) ∧
      (∀ m ∈ W, p = r.2 → m ∈ r.1) ∧
      ((∃ m ∈ l, (move_score tbl ini m : Int) = r.2) ∨ (r.1 = W ∧ r.2 = p)) := by
  intro l
  induction l with
  | nil =>
    intro W p r hW hr
    rw [pick_move_loop] at hr
    have hre := Option.some.inj hr
    subst hre
    refine ⟨?_, ?_, le_refl p, ?_, ?_, Or.inr ⟨rfl, rfl⟩⟩
    · exact fun m hm => ⟨Or.inr hm, hW m hm⟩
    · intro m hm; exact absurd hm (List.not_mem_nil m)
    · intro m hm; exact absurd hm (List.not_mem_nil m)
    · exact fun m hm _ => hm
  | cons m rest ih =>
    intro W p r hW hr
    rw [pick_move_loop] at hr
    cases hlk : lookup_op tbl m with
    | none => rw [hlk] at hr; exact absurd hr (by simp)
    | some op =>
      rw [hlk] at hr
      dsimp only at hr
      have hms : (move_score tbl ini m : Int) = ((op.preconditions ∩ ini.positions).card : Int) := by
        simp [move_score, hlk]
      by_cases h1 : p < ((op.preconditions ∩ ini.positions).card : Int)
      · rw [if_pos h1] at hr
        have hWnew : ∀ x ∈ ({m} : Finset Move),
            (move_score tbl ini x : Int) = ((op.preconditions ∩ ini.positions).card : Int) := by
          intro x hx
          rw [Finset.mem_singleton.mp hx, hms]
        obtain ⟨hi, hii, hiii, hiv, hv, hvi⟩ := ih _ _ r hWnew hr
        refine ⟨?_, ?_, ?_, ?_, ?_, ?_⟩
        · intro x hx
          obtain ⟨hloc, hsc⟩ := hi x hx
          refine ⟨?_, hsc⟩
          rcases hloc with hin | hin
          · exact Or.inl (List.mem_cons_of_mem m hin)
          · exact Or.inl (Finset.mem_singleton.mp hin ▸ List.mem_cons_self m rest)
        · intro x hx
          rcases List.mem_cons.mp hx with rfl | hin
          · rw [hms]; exact hiii
          · exact hii x hin
        · omega
        · intro x hx hsc
          rcases List.mem_cons.mp hx with rfl | hin
          · refine hv x (Finset.mem_singleton_self x) ?_
            rw [← hms]; exact hsc
          · exact hiv x hin hsc
        · intro x hx hpr
          exfalso
          omega
        · rcases hvi with ⟨x, hx, hsc⟩ | ⟨hr1, hr2⟩
          · exact Or.inl ⟨x, List.mem_cons_of_mem m hx, hsc⟩
          · refine Or.inl ⟨m, List.mem_cons_self m rest, ?_⟩
            rw [hms, hr2]
      · rw [if_neg h1] at hr
        by_cases h2 : ((op.preconditions ∩ ini.positions).card : Int) = p
        · rw [if_pos h2] at hr
          have hWnew : ∀ x ∈ insert m W, (move_score tbl ini x : Int) = p := by
            intro x hx
            rcases Finset.mem_insert.mp hx with rfl | hin
            · rw [hms]; exact h2
            · exact hW x hin
          obtain ⟨hi, hii, hiii, hiv, hv, hvi⟩ := ih _ _ r hWnew hr
          refine ⟨?_, ?_, hiii, ?_, ?_, ?_⟩
          · intro x hx
            obtain ⟨hloc, hsc⟩ := hi x hx
            refine ⟨?_, hsc⟩
            rcases hloc with hin | hin
            · exact Or.inl (List.mem_cons_of_mem m hin)
            · rcases Finset.mem_insert.mp hin with rfl | hin2
              · exact Or.inl (List.mem_cons_self x rest)
              · exact Or.inr hin2
          · intro x hx
            rcases List.mem_cons.mp hx with rfl | hin
            · rw [hms, h2]; exact hiii
            · exact hii x hin
          · intro x hx hsc
            rcases List.mem_cons.mp hx with rfl | hin
            · refine hv x (Finset.mem_insert_self x W) ?_
              rw [← hms, hsc] at h2
              exact h2.symm
            · exact hiv x hin hsc
          · intro x hx hpr
            exact hv x (Finset.mem_insert_of_mem hx) hpr
          · rcases hvi with ⟨x, hx, hsc⟩ | ⟨hr1, hr2⟩
            · exact Or.inl ⟨x, List.mem_cons_of_mem m hx, hsc⟩
            · refine Or.inl ⟨m, List.mem_cons_self m rest, ?_⟩
              rw [hms, hr2, h2]
        · rw [if_neg h2] at hr
          have hlt : ((op.preconditions ∩ ini.positions).card : Int) < p := by omega
          obtain ⟨hi, hii, hiii, hiv, hv, hvi⟩ := ih _ _ r hW hr
          refine ⟨?_, ?_, hiii, ?_, hv, ?_⟩
          · intro x hx
            obtain ⟨hloc, hsc⟩ := hi x hx
            refine ⟨?_, hsc⟩
            rcases hloc with hin | hin
            · exact Or.inl (List.mem_cons_of_mem m hin)
            · exact Or.inr hin
          · intro x hx
            rcases List.mem_cons.mp hx with rfl | hin
            · rw [hms]; omega
            · exact hii x hin
          · intro x hx hsc
            rcases List.mem_cons.mp hx with rfl | hin
            · exfalso
              rw [hms] at hsc
              omega
            · exact hiv x hin hsc
          · rcases hvi with ⟨x, hx, hsc⟩ | ⟨hr1, hr2⟩
            · exact Or.inl ⟨x, List.mem_cons_of_mem m hx, hsc⟩
            · exact Or.inr ⟨hr1, hr2⟩

/-- The iterative pick_move loop computes exactly the winners set (the
candidates of maximal score), whatever the set-iteration order was. -/
theorem pick_move_loop_eq_winners (tbl : List (Move × Op)) (ini : State)
    (l : List Move) (S : Finset Move) (hS : l.toFinset = S) (hne : l ≠ [])
    (hkeys : ∀ m ∈ l, (lookup_op tbl m).isSome) :
    ∃ p, pick_move_loop tbl ini l (∅, -1) = some
      (S.filter (fun m => ∀ m2 ∈ S, move_score tbl ini m2 ≤ move_score tbl ini m), p) := by
  obtain ⟨r, hr⟩ := pick_move_loop_total tbl ini l hkeys (∅, -1)
  have hmemS : ∀ x, x ∈ l ↔ x ∈ S := by
    intro x
    rw [← hS, List.mem_toFinset]
  obtain ⟨hi, hii, hiii, hiv, hv, hvi⟩ :=
    pick_move_loop_sound tbl ini l ∅ (-1) r (by simp) hr
  have hach : ∃ x ∈ l, ((move_score tbl ini x : Int)) = r.2 := by
    rcases hvi with h | ⟨hr1, hr2⟩
    · exact h
    · exfalso
      obtain ⟨x, hx⟩ := List.exists_mem_of_ne_nil l hne
      have := hii x hx
      rw [hr2] at this
      have hnn : (0 : Int) ≤ (move_score tbl ini x : Int) := Int.natCast_nonneg _
      omega
  obtain ⟨x0, hx0l, hx0⟩ := hach
  obtain ⟨r1, r2⟩ := r
  refine ⟨r2, ?_⟩
  rw [hr]
  have hfe : r1 = S.filter
      (fun m => ∀ m2 ∈ S, move_score tbl ini m2 ≤ move_score tbl ini m) := by
    ext y
    simp only [Finset.mem_filter]
    constructor
    · intro hy
      obtain ⟨hloc, hsc⟩ := hi y hy
      have hyl : y ∈ l := by
        rcases hloc with h | h
        · exact h
        · exact absurd h (Finset.not_mem_empty y)
      refine ⟨(hmemS y).mp hyl, ?_⟩
      intro m2 hm2
      have hm2l := (hmemS m2).mpr hm2
      have := hii m2 hm2l
      have h2 : (move_score tbl ini y : Int) = r2 := hsc
      omega
    · rintro ⟨hyS, hymax⟩
      have hyl := (hmemS y).mpr hyS
      have hle : (move_score tbl ini y : Int) ≤ r2 := hii y hyl
      have hge : move_score tbl ini x0 ≤ move_score tbl ini y :=
        hymax x0 ((hmemS x0).mp hx0l)
      have heq : (move_score tbl ini y : Int) = r2 := by omega
      exact hiv y hyl heq
  rw [hfe]

/-- winners unfolded when every candidate is a key of the table. -/
theorem winners_eq (tbl : List (Move × Op)) (ini : State) (pms : Finset Move)
    (hkeys : ∀ m ∈ pms, (lookup_op tbl m).isSome) :
    winners tbl ini pms = some (pms.filter
      (fun m => ∀ m2 ∈ pms, move_score tbl ini m2 ≤ move_score tbl ini m)) := by
  unfold winners
  exact if_pos hkeys

/-- Properties of a computed winners set. -/
theorem winners_spec {tbl : List (Move × Op)} {ini : State} {pms W : Finset Move}
    (hW : winners tbl ini pms = some W) :
    W ⊆ pms ∧ ∀ m ∈ W, ∀ m2 ∈ pms, move_score tbl ini m2 ≤ move_score tbl ini m := by
  rw [winners] at hW
  by_cases hkeys : ∀ m ∈ pms, (lookup_op tbl m).isSome
  · rw [if_pos hkeys] at hW
    have hWe := Option.some.inj hW
    subst hWe
    exact ⟨Finset.filter_subset _ _, fun m hm => (Finset.mem_filter.mp hm).2⟩
  · rw [if_neg hkeys] at hW
    exact absurd hW (by simp)

/-- A nonempty candidate set yields a nonempty winners set. -/
theorem winners_nonempty {tbl : List (Move × Op)} {ini : State} {pms W : Finset Move}
    (hne : pms.Nonempty) (hW : winners tbl ini pms = some W) : W.Nonempty := by
  rw [winners] at hW
  by_cases hkeys : ∀ m ∈ pms, (lookup_op tbl m).isSome
  · rw [if_pos hkeys] at hW
    have hWe := Option.some.inj hW
    subst hWe
    obtain ⟨b, hb, hmax⟩ := Finset.exists_max_image pms (move_score tbl ini) hne
    exact ⟨b, Finset.mem_filter.mpr ⟨hb, hmax⟩⟩
  · rw [if_neg hkeys] at hW
    exact absurd hW (by simp)

/-! ### The run loop -/

/-- Main loop invariant for forward consistency: if replaying the
reversed accumulator forward from the current state reaches G, then on
success the returned plan replays forward from the initial state to G. -/
theorem run_loop_forward (ini : State) (chooser : Nat → Finset Move → Move)
    (tmo : Nat → Bool) (hch : ∀ k w, w.Nonempty → chooser k w ∈ w)
    (hini : well_formed ini) (G : State) :
    ∀ (fuel k : Nat) (current : State) (acc ops : List Move) (fin : State),
      well_formed current →
      run_forward current acc.reverse = some G →
      run_loop operators_list ini chooser tmo fuel k current acc = some (true, ops, fin) →
      run_forward ini ops = some G := by
  intro fuel
  induction fuel with
  | zero =>
    intro k current acc ops fin _ _ hr
    rw [run_loop] at hr
    exact Option.noConfusion hr
  | succ n ihn =>
    intro k current acc ops fin hwf hfwd hr
    rw [run_loop] at hr
    by_cases hdone : 9 ≤ (current.positions ∩ ini.positions).card
    · rw [if_pos hdone] at hr
      have hinj := Option.some.inj hr
      have hops : acc.reverse = ops := congrArg (fun x => x.2.1) hinj
      have hcur : current = ini := State.ext (states_eq_of_inter hwf hini hdone)
      rw [← hops, ← hcur]
      exact hfwd
    · rw [if_neg hdone] at hr
      cases hgpm : current.get_possible_moves with
      | none =>
        rw [hgpm] at hr
        exact Option.noConfusion hr
      | some pms =>
        rw [hgpm] at hr
        dsimp only at hr
        cases hwin : winners operators_list ini pms with
        | none =>
          rw [hwin] at hr
          exact Option.noConfusion hr
        | some w =>
          rw [hwin] at hr
          dsimp only at hr
          by_cases hwe : w = ∅
          · rw [if_pos hwe] at hr
            exact Option.noConfusion hr
          · rw [if_neg hwe] at hr
            have hchosen : chooser k w ∈ w := hch k w (Finset.nonempty_iff_ne_empty.mpr hwe)
            have hchpms : chooser k w ∈ pms := (winners_spec hwin).1 hchosen
            obtain ⟨ci, cj, hgc, _, _⟩ := get_clear_spec hwf
            obtain ⟨s2, hupd, hwf2, hinv⟩ := cand_regress hwf hgc hgpm hchpms
            rw [hupd] at hr
            dsimp only at hr
            cases htmo : tmo k with
            | true =>
              rw [htmo] at hr
              rw [if_pos rfl] at hr
              have hinj := Option.some.inj hr
              have hb : false = true := congrArg (fun x => x.1) hinj
              exact Bool.noConfusion hb
            | false =>
              rw [htmo] at hr
              rw [if_neg (by simp)] at hr
              have hfwd2 : run_forward s2 (acc ++ [chooser k w]).reverse = some G := by
                rw [List.reverse_append]
                show run_forward s2 (chooser k w :: acc.reverse) = some G
                rw [run_forward, hinv]
                exact hfwd
              exact ihn (k + 1) s2 (acc ++ [chooser k w]) ops fin hwf2 hfwd2 hr

/-- Main loop invariant for the state and plan bookkeeping: whatever a
loop call returns, the final current state is the entry current state
with the chosen moves regressed in order, and the returned operation
list is the accumulator plus those moves, reversed exactly when the
loop succeeded. -/
theorem run_loop_fold (tbl : List (Move × Op)) (ini : State)
    (chooser : Nat → Finset Move → Move) (tmo : Nat → Bool) :
    ∀ (fuel k : Nat) (current : State) (acc : List Move) (b : Bool)
      (ops : List Move) (fin : State),
      run_loop tbl ini chooser tmo fuel k current acc = some (b, ops, fin) →
      ∃ performed, regress_fold tbl current performed = some fin ∧
        (b = true → ops = (acc ++ performed).reverse) ∧
        (b = false → ops = acc ++ performed) := by
  intro fuel
  induction fuel with
  | zero =>
    intro k current acc b ops fin hr
    rw [run_loop] at hr
    exact Option.noConfusion hr
  | succ n ihn =>
    intro k current acc b ops fin hr
    rw [run_loop] at hr
    by_cases hdone : 9 ≤ (current.positions ∩ ini.positions).card
    · rw [if_pos hdone] at hr
      have hinj := Option.some.inj hr
      have hb : true = b := congrArg (fun x => x.1) hinj
      have hops : acc.reverse = ops := congrArg (fun x => x.2.1) hinj
      have hfin : current = fin := congrArg (fun x => x.2.2) hinj
      refine ⟨[], by rw [regress_fold]; rw [hfin], ?_, ?_⟩
      · intro _
        rw [← hops, List.append_nil]
      · intro hbf
        rw [← hb] at hbf
        exact Bool.noConfusion hbf
    · rw [if_neg hdone] at hr
      cases hgpm : current.get_possible_moves with
      | none =>
        rw [hgpm] at hr
        exact Option.noConfusion hr
      | some pms =>
        rw [hgpm] at hr
        dsimp only at hr
        cases hwin : winners tbl ini pms with
        | none =>
          rw [hwin] at hr
          exact Option.noConfusion hr
        | some w =>
          rw [hwin] at hr
          dsimp only at hr
          by_cases hwe : w = ∅
          · rw [if_pos hwe] at hr
            exact Option.noConfusion hr
          · rw [if_neg hwe] at hr
            cases hupd : update_current_state tbl current (chooser k w) with
            | none =>
              rw [hupd] at hr
              exact Option.noConfusion hr
            | some s2 =>
              rw [hupd] at hr
              dsimp only at hr
              cases htmo : tmo k with
              | true =>
                rw [htmo] at hr
                rw [if_pos rfl] at hr
                have hinj := Option.some.inj hr
                have hb : false = b := congrArg (fun x => x.1) hinj
                have hops : acc ++ [chooser k w] = ops := congrArg (fun x => x.2.1) hinj
                have hfin : s2 = fin := congrArg (fun x => x.2.2) hinj
                refine ⟨[chooser k w], ?_, ?_, ?_⟩
                · rw [regress_fold, hupd]
                  dsimp only
                  rw [regress_fold, hfin]
                · intro hbt
                  rw [← hb] at hbt
                  exact Bool.noConfusion hbt
                · intro _
                  exact hops.symm
              | false =>
                rw [htmo] at hr
                rw [if_neg (by simp)] at hr
                obtain ⟨p2, hfold, ht, hf⟩ := ihn (k + 1) s2 (acc ++ [chooser k w]) b ops fin hr
                refine ⟨chooser k w :: p2, ?_, ?_, ?_⟩
                · rw [regress_fold, hupd]
                  dsimp only
                  exact hfold
                · intro hbt
                  rw [ht hbt, List.append_assoc]
                  rfl
                · intro hbf
                  rw [hf hbf, List.append_assoc]
                  rfl

/-- Cardinality of the candidate move set by blank position. -/
theorem gpm_count {s : State} (h : well_formed s) {ci cj : Nat}
    (hgc : s.get_clear = some (ci, cj)) {M : Finset Move}
    (hM : s.get_possible_moves = some M) :
    ((ci, cj) ∈ cornerCells → M.card = 2) ∧
    ((ci, cj) ∈ edgeCells → M.card = 3) ∧
    ((ci, cj) = (2, 2) → M.card = 4) ∧ 2 ≤ M.card ∧ M.card ≤ 4 := by
  obtain ⟨hcl, hgrid⟩ := get_clear_mem h hgc
  rw [gpm_eq h hgc] at hM
  have hM2 := Option.some.inj hM
  subst hM2
  obtain ⟨hci1, hci3, hcj1, hcj3⟩ := hgrid
  interval_cases ci <;> interval_cases cj <;>
    simp [cornerCells, edgeCells, Prod.ext_iff, ← Finset.insert_eq,
      Finset.card_insert_of_not_mem, Finset.mem_insert, Finset.mem_singleton,
      Move.mk.injEq]

/-! ### The claims -/

/-- Claim C1: the claim states that a run that exhausts its time budget
returns false together with an empty operation list. The code instead
returns false together with the operations accumulated so far, in
regression order. Here the fresh planner on the one-move scenario with
an expired clock returns (false, [move of tile 4 from (2,2) to (2,3)]),
a nonempty list, contradicting the docstring of run and the claim. -/
theorem claim_C1_code_divergence :
    Strips.run (mkStrips ini7 5) chConst tmoOn 3 =
      some ((false, [m23]), ⟨ini7, 5, operators_list, goal_state, ini7⟩) ∧
    ([m23] : List Move) ≠ [] :=
  ⟨by decide, by decide⟩

/-- Claim C2: for a well-formed initial state and a freshly constructed
planner, every successful run returns an operation sequence whose
forward replay from the initial state ends exactly in the fixed goal
state, for every valid random chooser and every clock. -/
theorem claim_C2_run_forward_consistency (ini : State) (hini : well_formed ini)
    (chooser : Nat → Finset Move → Move)
    (hch : ∀ k w, w.Nonempty → chooser k w ∈ w) (tmo : Nat → Bool) (fuel t : Nat)
    (ops : List Move) (S2 : Strips)
    (hrun : Strips.run (mkStrips ini t) chooser tmo fuel = some ((true, ops), S2)) :
    run_forward ini ops = some goal_state := by
  unfold Strips.run at hrun
  cases hloop : run_loop (mkStrips ini t).operators (mkStrips ini t).initial_state
      chooser tmo fuel 1 (mkStrips ini t).current_state [] with
  | none =>
    rw [hloop] at hrun
    exact Option.noConfusion hrun
  | some res =>
    obtain ⟨b, ops2, fin⟩ := res
    rw [hloop] at hrun
    dsimp only at hrun
    have hinj := Option.some.inj hrun
    have hb : b = true := congrArg (fun x => x.1.1) hinj
    have hops : ops2 = ops := congrArg (fun x => x.1.2) hinj
    rw [hb, hops] at hloop
    refine run_loop_forward ini chooser tmo hch hini goal_state fuel 1
      goal_state.copy [] ops fin (by decide) rfl hloop

/-- Witness for claim C2 on a successful concrete run of the one-move
scenario with the canonical chooser. -/
theorem claim_C2_witness :
    well_formed ini7 ∧ run_forward ini7 [m23] = some goal_state :=
  ⟨by decide,
    claim_C2_run_forward_consistency ini7 (by decide) chMin chMin_valid tmoOff 3 5
      [m23] ⟨ini7, 5, operators_list, goal_state, ini7⟩ (by decide)⟩

/-- Claim C3 counterexample: the goal state is well-formed and the move
of tile 1 from (1,1) to (1,2) is a key of the operator table, yet the
regression step on that state and move differs from the classical
STRIPS regression (state minus add list) union preconditions: the code
deletes the occupant facts of the two cells, which are not the add
list facts for a move that was not drawn from the candidate set. -/
theorem claim_C3_counterexample :
    well_formed goal_state ∧
    (lookup_op operators_list ⟨1, 1, 1, 1, 2⟩).isSome ∧
    update_current_state operators_list goal_state ⟨1, 1, 1, 1, 2⟩ ≠
      (lookup_op operators_list ⟨1, 1, 1, 1, 2⟩).map
        (fun op => ⟨(goal_state.positions \ op.addList) ∪ op.preconditions⟩) :=
  ⟨by decide, by decide, by decide⟩

/-- Claim C3 amended: for every well-formed current state and every
move drawn from that state's candidate moves, the regression step
equals classical STRIPS regression, predecessor = (state minus add
list) union preconditions. -/
theorem claim_C3_amended_regression {s : State} (h : well_formed s)
    {M : Finset Move} (hM : s.get_possible_moves = some M) {m : Move} (hm : m ∈ M) :
    ∃ op, lookup_op operators_list m = some op ∧
      update_current_state operators_list s m =
        some ⟨(s.positions \ op.addList) ∪ op.preconditions⟩ := by
  obtain ⟨ci, cj, hgc, _, _⟩ := get_clear_spec h
  obtain ⟨t, ni, nj, rfl, ht1, ht8, hon, hcl, hgci, hgni, hadj, hnum⟩ :=
    cand_char h hgc hM hm
  have hkey := mem_possible_operators ht1 ht8 hgci hgni hadj
  refine ⟨opOf _, lookup_op_some hkey, ?_⟩
  rw [update_eq h hcl hon hkey]
  congr 2
  rw [Finset.pair_comm (clearF ci cj) (onF t ni nj)]
  rfl

/-- Witness for the amended claim C3 at the goal state and the
candidate move of tile 4 from (2,2) to (2,3). -/
theorem claim_C3_amended_witness :
    ∃ op, lookup_op operators_list m23 = some op ∧
      update_current_state operators_list goal_state m23 =
        some ⟨(goal_state.positions \ op.addList) ∪ op.preconditions⟩ :=
  claim_C3_amended_regression (by decide)
    (by decide : goal_state.get_possible_moves =
      some {(⟨2,2,2,1,2⟩ : Move), ⟨6,2,2,3,2⟩, ⟨8,2,2,2,1⟩, ⟨4,2,2,2,3⟩})
    (by decide)

/-- Claim C4: for every well-formed board state, regressing along any
of its candidate moves succeeds and yields again a well-formed board
state with exactly nine facts. -/
theorem claim_C4_invariant_preserved {s : State} (h : well_formed s)
    {M : Finset Move} (hM : s.get_possible_moves = some M) {m : Move} (hm : m ∈ M) :
    ∃ s2, update_current_state operators_list s m = some s2 ∧ well_formed s2 ∧
      s2.positions.card = 9 := by
  obtain ⟨ci, cj, hgc, _, _⟩ := get_clear_spec h
  obtain ⟨s2, hupd, hwf2, _⟩ := cand_regress h hgc hM hm
  exact ⟨s2, hupd, hwf2, wf_card hwf2⟩

/-- Witness for claim C4 at the goal state and its candidate move of
tile 4 from (2,2) to (2,3). -/
theorem claim_C4_witness :
    ∃ s2, update_current_state operators_list goal_state m23 = some s2 ∧
      well_formed s2 ∧ s2.positions.card = 9 :=
  claim_C4_invariant_preserved (by decide)
    (by decide : goal_state.get_possible_moves =
      some {(⟨2,2,2,1,2⟩ : Move), ⟨6,2,2,3,2⟩, ⟨8,2,2,2,1⟩, ⟨4,2,2,2,3⟩})
    (by decide)

/-- Claim C5: for every well-formed board state, get_possible_moves
succeeds; it returns exactly 2 moves when the blank is in a corner, 3
on an edge, 4 in the center, never fewer than 2 nor more than 4, and
every returned move is the tuple (tileAt(n), blankRow, blankCol, nRow,
nCol) for an in-grid orthogonal neighbour (nRow, nCol) of the blank. -/
theorem claim_C5_candidate_moves {s : State} (h : well_formed s) :
    ∃ ci cj M, s.get_clear = some (ci, cj) ∧ s.get_possible_moves = some M ∧
      ((ci, cj) ∈ cornerCells → M.card = 2) ∧
      ((ci, cj) ∈ edgeCells → M.card = 3) ∧
      ((ci, cj) = (2, 2) → M.card = 4) ∧
      2 ≤ M.card ∧ M.card ≤ 4 ∧
      ∀ m ∈ M, ∃ ni nj, inGrid ni nj ∧ adjacentCells ci cj ni nj ∧
        s.get_number ni nj = some m.tile ∧ m = ⟨m.tile, ci, cj, ni, nj⟩ := by
  obtain ⟨ci, cj, hgc, hcl, hgrid⟩ := get_clear_spec h
  have hM := gpm_eq h hgc
  obtain ⟨hcorner, hedge, hcenter, h2, h4⟩ := gpm_count h hgc hM
  refine ⟨ci, cj, _, hgc, hM, hcorner, hedge, hcenter, h2, h4, ?_⟩
  intro m hm
  obtain ⟨t, ni, nj, hmeq, ht1, ht8, hon, _, _, hgni, hadj, hnum⟩ :=
    cand_char h hgc hM hm
  subst hmeq
  exact ⟨ni, nj, hgni, hadj, hnum, rfl⟩

/-- Witness for claim C5 at the well-formed goal state. -/
theorem claim_C5_witness :
    well_formed goal_state ∧
    ∃ ci cj M, goal_state.get_clear = some (ci, cj) ∧
      goal_state.get_possible_moves = some M ∧
      ((ci, cj) ∈ cornerCells → M.card = 2) ∧
      ((ci, cj) ∈ edgeCells → M.card = 3) ∧
      ((ci, cj) = (2, 2) → M.card = 4) ∧
      2 ≤ M.card ∧ M.card ≤ 4 ∧
      ∀ m ∈ M, ∃ ni nj, inGrid ni nj ∧ adjacentCells ci cj ni nj ∧
        goal_state.get_number ni nj = some m.tile ∧ m = ⟨m.tile, ci, cj, ni, nj⟩ :=
  ⟨by decide, claim_C5_candidate_moves (by decide)⟩

/-- Claim C6: for every nonempty candidate set whose moves are keys of
the operator table, and for every set-iteration order, the pick_move
loop succeeds and every move in its winner set (hence every value
random.choice can return) is a member of the candidate set, has score
the cardinality of the intersection of its preconditions with the
initial fact set, at most 2, and that score is maximal over all
candidates. -/
theorem claim_C6_pick_move_maximal (ini : State) (l : List Move) (S : Finset Move)
    (hS : l.toFinset = S) (hne : l ≠ [])
    (hkeys : ∀ m ∈ l, (lookup_op operators_list m).isSome) :
    ∃ W p, pick_move_loop operators_list ini l (∅, -1) = some (W, p) ∧
      ∀ m ∈ W, m ∈ S ∧ move_score operators_list ini m ≤ 2 ∧
        ∀ m2 ∈ S, move_score operators_list ini m2 ≤ move_score operators_list ini m := by
  obtain ⟨p, hp⟩ := pick_move_loop_eq_winners operators_list ini l S hS hne hkeys
  refine ⟨_, p, hp, ?_⟩
  intro m hm
  obtain ⟨hmS, hmax⟩ := Finset.mem_filter.mp hm
  exact ⟨hmS, move_score_le_two ini m, hmax⟩

/-- Witness for claim C6 on the candidate set of the goal state with
the one-move scenario initial state. -/
theorem claim_C6_witness :
    ∃ W p, pick_move_loop operators_list ini7
        [⟨2,2,2,1,2⟩, ⟨6,2,2,3,2⟩, ⟨8,2,2,2,1⟩, ⟨4,2,2,2,3⟩] (∅, -1) = some (W, p) ∧
      ∀ m ∈ W,
        m ∈ ({(⟨2,2,2,1,2⟩ : Move), ⟨6,2,2,3,2⟩, ⟨8,2,2,2,1⟩, ⟨4,2,2,2,3⟩} : Finset Move) ∧
        move_score operators_list ini7 m ≤ 2 ∧
        ∀ m2 ∈ ({(⟨2,2,2,1,2⟩ : Move), ⟨6,2,2,3,2⟩, ⟨8,2,2,2,1⟩, ⟨4,2,2,2,3⟩} : Finset Move),
          move_score operators_list ini7 m2 ≤ move_score operators_list ini7 m :=
  claim_C6_pick_move_maximal ini7 _ _ (by decide) (by decide) (by decide)

/-- Claim C7: the claim names the single returned move as tile 4 from
(2,3) to (2,2). The code returns the move tuple (move, 4, 2, 2, 2, 3),
whose from cell is (2,2) and whose to cell is (2,3): on the one-move
scenario, with a sufficient budget, the fresh planner succeeds with
exactly that one move, which differs from the move the claim names.
The constant chooser used here agrees with random.choice because the
only winner set reached is the singleton of that move. -/
theorem claim_C7_counterexample :
    Strips.run (mkStrips ini7 5) chConst tmoOff 3 =
      some ((true, [m23]), ⟨ini7, 5, operators_list, goal_state, ini7⟩) ∧
    m23 ≠ (⟨4, 2, 3, 2, 2⟩ : Move) :=
  ⟨by decide, by decide⟩

/-- Claim C7 amended: on the one-move scenario with a budget whose
check does not trip on the first iteration, a fresh planner succeeds
with exactly one move, tile 4 from cell (2,2) to cell (2,3), for every
valid random chooser. -/
theorem claim_C7_one_move (chooser : Nat → Finset Move → Move)
    (hch : ∀ k w, w.Nonempty → chooser k w ∈ w) (tmo : Nat → Bool)
    (htmo : tmo 1 = false) (fuel t : Nat) :
    Strips.run (mkStrips ini7 t) chooser tmo (fuel + 2) =
      some ((true, [m23]), ⟨ini7, t, operators_list, goal_state, ini7⟩) := by
  have hc : chooser 1 {m23} = m23 :=
    Finset.mem_singleton.mp (hch 1 {m23} ⟨m23, Finset.mem_singleton_self m23⟩)
  have hloop : run_loop operators_list ini7 chooser tmo (fuel + 2) 1 goal_state.copy []
      = some (true, [m23], ini7) := by
    rw [run_loop]
    rw [if_neg (by decide)]
    have hg : goal_state.copy.get_possible_moves =
        some {(⟨2,2,2,1,2⟩ : Move), ⟨6,2,2,3,2⟩, ⟨8,2,2,2,1⟩, ⟨4,2,2,2,3⟩} := by decide
    rw [hg]
    dsimp only
    have hw : winners operators_list ini7
        {(⟨2,2,2,1,2⟩ : Move), ⟨6,2,2,3,2⟩, ⟨8,2,2,2,1⟩, ⟨4,2,2,2,3⟩} =
        some {m23} := by decide
    rw [hw]
    dsimp only
    rw [if_neg (by decide : ¬({m23} : Finset Move) = ∅)]
    rw [hc]
    have hu : update_current_state operators_list goal_state.copy m23 = some ini7 := by
      decide
    rw [hu]
    dsimp only
    rw [htmo]
    rw [if_neg (by simp)]
    rw [run_loop]
    rw [if_pos (by decide : 9 ≤ (ini7.positions ∩ ini7.positions).card)]
    rfl
  unfold Strips.run
  rw [show (mkStrips ini7 t).operators = operators_list from rfl,
    show (mkStrips ini7 t).initial_state = ini7 from rfl,
    show (mkStrips ini7 t).current_state = goal_state.copy from rfl, hloop]
  rfl

/-- Witness for the amended claim C7 with the canonical chooser, a
clock that never trips and the smallest sufficient fuel. -/
theorem claim_C7_witness :
    Strips.run (mkStrips ini7 5) chMin tmoOff 2 =
      some ((true, [m23]), ⟨ini7, 5, operators_list, goal_state, ini7⟩) :=
  claim_C7_one_move chMin chMin_valid tmoOff rfl 0 5

/-- Claim C8: when the initial fact set equals the goal fact set, a
fresh planner returns success with an empty operation list on its
first loop test, performing no regression step and leaving the
current state untouched, for every chooser and clock. -/
theorem claim_C8_trivial_success (ini : State)
    (hini : ini.positions = goal_state.positions)
    (chooser : Nat → Finset Move → Move) (tmo : Nat → Bool) (fuel t : Nat) :
    Strips.run (mkStrips ini t) chooser tmo (fuel + 1) =
      some ((true, []), mkStrips ini t) := by
  unfold Strips.run
  have hloop : run_loop operators_list ini chooser tmo (fuel + 1) 1 goal_state.copy []
      = some (true, [], goal_state.copy) := by
    rw [run_loop]
    rw [if_pos ?hc]
    case hc =>
      have hcopy : goal_state.copy.positions = ini.positions := hini.symm
      rw [hcopy]
      rw [Finset.inter_self]
      rw [hini]
      decide
    rfl
  rw [show (mkStrips ini t).operators = operators_list from rfl,
    show (mkStrips ini t).initial_state = ini from rfl,
    show (mkStrips ini t).current_state = goal_state.copy from rfl, hloop]
  rfl

/-- Witness for claim C8 with the initial state equal to the goal
state, an already expired clock and fuel for one iteration. -/
theorem claim_C8_witness :
    Strips.run (mkStrips goal_state 5) chConst tmoOn 1 =
      some ((true, []), mkStrips goal_state 5) :=
  claim_C8_trivial_success goal_state rfl chConst tmoOn 0 5

/-- Claim C9: a run call leaves the initial state, the time budget,
the operator table and the goal state of the planner unchanged, does
not reset the current state at entry, and the resulting current state
is the entry current state with the regression steps of the chosen
moves applied in order; the returned list is exactly those moves,
reversed on success and unreversed on failure, so a later run call on
the resulting instance resumes from where this call stopped. -/
theorem claim_C9_frame (S : Strips) (chooser : Nat → Finset Move → Move)
    (tmo : Nat → Bool) (fuel : Nat) (r : Bool × List Move) (S2 : Strips)
    (hrun : S.run chooser tmo fuel = some (r, S2)) :
    S2.initial_state = S.initial_state ∧ S2.max_elaps_time = S.max_elaps_time ∧
    S2.operators = S.operators ∧ S2.goal_state = S.goal_state ∧
    ∃ performed, regress_fold S.operators S.current_state performed =
        some S2.current_state ∧
      (r.1 = true → r.2 = performed.reverse) ∧
      (r.1 = false → r.2 = performed) := by
  unfold Strips.run at hrun
  cases hloop : run_loop S.operators S.initial_state chooser tmo fuel 1
      S.current_state [] with
  | none =>
    rw [hloop] at hrun
    exact Option.noConfusion hrun
  | some res =>
    obtain ⟨b, ops, fin⟩ := res
    rw [hloop] at hrun
    dsimp only at hrun
    have hinj := Option.some.inj hrun
    have hr1 : (b, ops) = r := congrArg Prod.fst hinj
    have hS2 : { S with current_state := fin } = S2 := congrArg Prod.snd hinj
    obtain ⟨performed, hfold, ht, hf⟩ :=
      run_loop_fold S.operators S.initial_state chooser tmo fuel 1
        S.current_state [] b ops fin hloop
    subst hS2
    subst hr1
    refine ⟨rfl, rfl, rfl, rfl, performed, hfold, ?_, ?_⟩
    · intro hb
      have := ht hb
      simpa using this
    · intro hb
      have := hf hb
      simpa using this

/-- Witness for claim C9 on a successful concrete run of the one-move
scenario. -/
theorem claim_C9_witness :
    (mkStrips ini7 5).initial_state = (mkStrips ini7 5).initial_state ∧
    (mkStrips ini7 5).max_elaps_time = (mkStrips ini7 5).max_elaps_time ∧
    (mkStrips ini7 5).operators = (mkStrips ini7 5).operators ∧
    (mkStrips ini7 5).goal_state = (mkStrips ini7 5).goal_state ∧
    ∃ performed, regress_fold (mkStrips ini7 5).operators
        (mkStrips ini7 5).current_state performed = some ini7 ∧
      ((true, [m23]).1 = true → (true, [m23]).2 = performed.reverse) ∧
      ((true, [m23]).1 = false → (true, [m23]).2 = performed) := by
  have h := claim_C9_frame (mkStrips ini7 5) chConst tmoOff 3 (true, [m23])
    ⟨ini7, 5, operators_list, goal_state, ini7⟩ (by decide)
  exact h

/-- Claim C10: for every well-formed board state, the candidate move
set exists and is nonempty, every candidate is a key of the
precomputed operator table with tile 1..8 and orthogonally adjacent
in-grid cells, the pick_move loop succeeds on every iteration order of
the candidates, and the winner set exists and is nonempty, so neither
the table lookup nor the random choice can fail during run. -/
theorem claim_C10_pick_move_safe (s : State) (h : well_formed s) (ini : State) :
    ∃ M, s.get_possible_moves = some M ∧ M.Nonempty ∧
      (∀ m ∈ M, (lookup_op operators_list m).isSome ∧ 1 ≤ m.tile ∧ m.tile ≤ 8 ∧
        inGrid m.fi m.fj ∧ inGrid m.ti m.tj ∧ adjacentCells m.fi m.fj m.ti m.tj) ∧
      (∀ l : List Move, l.toFinset = M →
        ∃ r, pick_move_loop operators_list ini l (∅, -1) = some r) ∧
      ∃ W, winners operators_list ini M = some W ∧ W.Nonempty := by
  obtain ⟨ci, cj, hgc, hcl, hgrid⟩ := get_clear_spec h
  obtain ⟨M, hM⟩ : ∃ M, s.get_possible_moves = some M := ⟨_, gpm_eq h hgc⟩
  obtain ⟨_, _, _, h2, _⟩ := gpm_count h hgc hM
  have hMne : M.Nonempty := Finset.card_pos.mp (by omega)
  have hkeys2 : ∀ m ∈ M, (lookup_op operators_list m).isSome := by
    intro m hm
    obtain ⟨_, hlk, _⟩ := cand_key h hgc hM hm
    exact Option.isSome_iff_exists.mpr ⟨opOf m, hlk⟩
  refine ⟨M, hM, hMne, ?_, ?_,
    ⟨_, winners_eq operators_list ini M hkeys2,
      winners_nonempty hMne (winners_eq operators_list ini M hkeys2)⟩⟩
  · intro m hm
    obtain ⟨hkey, hlk, ht1, ht8, hg1, hg2, hadj⟩ := cand_key h hgc hM hm
    exact ⟨Option.isSome_iff_exists.mpr ⟨opOf m, hlk⟩, ht1, ht8, hg1, hg2, hadj⟩
  · intro l hl
    refine pick_move_loop_total operators_list ini l ?_ (∅, -1)
    intro m hm
    refine hkeys2 m ?_
    rw [← hl]
    exact List.mem_toFinset.mpr hm

/-- Witness for claim C10 at the goal state with the one-move scenario
initial state. -/
theorem claim_C10_witness :
    ∃ M, goal_state.get_possible_moves = some M ∧ M.Nonempty ∧
      (∀ m ∈ M, (lookup_op operators_list m).isSome ∧ 1 ≤ m.tile ∧ m.tile ≤ 8 ∧
        inGrid m.fi m.fj ∧ inGrid m.ti m.tj ∧ adjacentCells m.fi m.fj m.ti m.tj) ∧
      (∀ l : List Move, l.toFinset = M →
        ∃ r, pick_move_loop operators_list ini7 l (∅, -1) = some r) ∧
      ∃ W, winners operators_list ini7 M = some W ∧ W.Nonempty :=
  claim_C10_pick_move_safe goal_state (by decide) ini7
